import Mathlib

/-!
# ssync: a two-way directory synchroniser

A shallow embedding of `file.go` (jamlib/ssync) over an explicit model of the
file system, followed by theorems about the embedded functions.

Layout:

* Part 1: the Go library functions the program calls (`path/filepath`,
  `strings`, `sort`, `bufio`), over Lean strings.
* Part 2: the file system: a tree of files and directories, with `os.Stat`,
  `os.MkdirAll`, `os.Rename`, `filepath.Walk` and the file operations used by
  `copyFile`.
* Part 3: the functions of `file.go`, translated statement by statement.
* Part 4: example file system states and the definitions the theorems are
  stated with.
* Part 5: theorems.

Modelling conventions.  A Go `string` is a Lean `String`: file contents and
paths are taken to be valid UTF-8, on which Go's bytewise string order is the
code point order.  Functions returning `(value, error)` return the value
together with an `Option Errno`, or an `Except Errno`.  The file system is
threaded through explicitly.  There are no symbolic links, permissions or
I/O failures in the model: every error is one a tree of files and directories
can produce (a missing entry, a file where a directory is needed, ...).  A
path is resolved as the kernel resolves it, element by element through
existing directories, so that paths the program hands over as it received
them (the arguments of `RenameFolder`) are treated as the system treats them.
-/

namespace Ssync

/-! ## Part 1: Go library functions -/

/-- Split a character list at every occurrence of `sep`; the pieces do not
contain `sep`, and there is always at least one piece. -/
def splitOnChar (sep : Char) : List Char → List (List Char)
  | [] => [[]]
  | c :: cs =>
    match splitOnChar sep cs with
    | [] => [[]]
    | hd :: tl => if c = sep then [] :: hd :: tl else (c :: hd) :: tl

/-- Concatenate the pieces with `sep` between consecutive ones. -/
def joinWith (sep : Char) : List (List Char) → List Char
  | [] => []
  | [x] => x
  | x :: y :: rest => x ++ sep :: joinWith sep (y :: rest)

/-- One element of a path processed by `filepath.Clean`; `stack` holds the
elements kept so far, last one first.  Empty elements and `.` vanish, `..`
cancels a preceding proper element, is dropped at the root of a rooted path and
is kept otherwise. -/
def cleanStep (rooted : Bool) (stack : List (List Char)) (comp : List Char) :
    List (List Char) :=
  if comp = [] ∨ comp = ['.'] then stack
  else if comp = ['.', '.'] then
    match stack with
    | [] => if rooted then [] else [comp]
    | top :: rest => if top = ['.', '.'] then comp :: top :: rest else rest
  else comp :: stack

/-- Go's `filepath.Clean` on a Unix path: the shortest path naming the same
place by purely lexical processing; the empty result is `"."`. -/
def Clean (path : String) : String :=
  let rooted : Bool := path.data.head? = some '/'
  let comps := ((splitOnChar '/' path.data).foldl (cleanStep rooted) []).reverse
  let body := joinWith '/' comps
  if rooted then ⟨'/' :: body⟩ else if body = [] then "." else ⟨body⟩

/-- Go's `filepath.Join` for two elements: the elements from the first
non-empty one on are joined by `/` and the result is cleaned; when both are
empty the result is the empty string. -/
def Join (a b : String) : String :=
  if a ≠ "" then Clean (a ++ "/" ++ b)
  else if b ≠ "" then Clean b
  else ""

/-- The prefix of a path up to and including its last separator. -/
def upToLastSlash (cs : List Char) : List Char :=
  (cs.reverse.dropWhile (fun c => c != '/')).reverse

/-- Go's `filepath.Dir`: everything but the last element, cleaned. -/
def Dir (path : String) : String :=
  Clean ⟨upToLastSlash path.data⟩

/-- Go's `unicode.IsSpace`. -/
def isSpace (c : Char) : Bool :=
  let n := c.toNat
  n = 0x09 || n = 0x0A || n = 0x0B || n = 0x0C || n = 0x0D || n = 0x20 ||
  n = 0x85 || n = 0xA0 || n = 0x1680 || (0x2000 ≤ n && n ≤ 0x200A) ||
  n = 0x2028 || n = 0x2029 || n = 0x202F || n = 0x205F || n = 0x3000

/-- Go's `strings.TrimSpace`: leading and trailing white space removed. -/
def TrimSpace (s : String) : String :=
  ⟨((s.data.dropWhile isSpace).reverse.dropWhile isSpace).reverse⟩

/-- Go's `len` of a string: its length in bytes (UTF-8). -/
def len (s : String) : Nat :=
  (s.data.map (fun c => c.utf8Size)).sum

/-- Strict lexicographic order on character lists by code point, which is
Go's `<` on valid UTF-8 strings. -/
def charsLess : List Char → List Char → Bool
  | _, [] => false
  | [], _ :: _ => true
  | a :: as, b :: bs =>
    if a.toNat < b.toNat then true
    else if b.toNat < a.toNat then false
    else charsLess as bs

/-- Go's `a < b` on strings. -/
def strLess (a b : String) : Bool := charsLess a.data b.data

/-- Insert into an ascending list, after the entries that are not greater. -/
def insertSorted (x : String) : List String → List String
  | [] => [x]
  | y :: ys => if strLess x y then x :: y :: ys else y :: insertSorted x ys

/-- Go's `sort.Strings`: the ascending rearrangement of the slice. -/
def sortStrings : List String → List String
  | [] => []
  | x :: xs => insertSorted x (sortStrings xs)

/-- Whether `p` is a prefix of `s`. -/
def startsWith : List Char → List Char → Bool
  | [], _ => true
  | _ :: _, [] => false
  | a :: as, b :: bs => a = b && startsWith as bs

/-- Remove the first occurrence of `old` from `s`, if there is one. -/
def removeFirst (old : List Char) : List Char → List Char
  | [] => []
  | c :: cs =>
    if startsWith old (c :: cs) then (c :: cs).drop old.length
    else c :: removeFirst old cs

/-- Go's `strings.Replace(s, old, "", 1)`. -/
def replaceFirstWithEmpty (s old : String) : String :=
  ⟨removeFirst old.data s.data⟩

/-- Go's `s[1:]` for a string whose first byte is a whole character (true of
every ASCII first character): the string without it. -/
def dropFirstByte (s : String) : String := ⟨s.data.drop 1⟩

/-- Go's `fmt.Sprintf("%v (%v)", dest, x)` for a string and an `int`. -/
def sprintfSuffix (dest : String) (x : Int) : String :=
  dest ++ " (" ++ toString x ++ ")"

/-- Go's `x += 1` on a 64-bit `int`: two's complement wrap-around. -/
def incInt (x : Int) : Int :=
  (x + 1 + 2 ^ 63) % 2 ^ 64 - 2 ^ 63

/-! ## Part 2: the file system -/

/-- The error numbers the modelled system calls can return. -/
inductive Errno where
  | ENOENT
  | ENOTDIR
  | EISDIR
  | EINVAL
  | EEXIST
  deriving DecidableEq, Repr

/-- What the program reads of an `os.FileInfo`: the directory flag and the
modification time, in nanoseconds since the epoch. -/
structure FileInfo where
  isDir : Bool
  modTime : Int
  deriving DecidableEq, Repr

deriving instance DecidableEq for Except

/-- Go's `fi.ModTime().Unix()`: the modification time in whole seconds since
the epoch, rounded down. -/
def FileInfo.Unix (fi : FileInfo) : Int := fi.modTime / 1000000000

/-- A file system object: a regular file with its content and modification
time, or a directory with its named entries.  Directory time stamps are not
tracked (the program never reads them); `Node.info` reports 0 for them. -/
inductive Node where
  | file (content : String) (modTime : Int)
  | dir (entries : List (String × Node))

/-- The `os.FileInfo` of an object. -/
def Node.info : Node → FileInfo
  | .file _ t => ⟨false, t⟩
  | .dir _ => ⟨true, 0⟩

/-- The entry called `name` of a directory listing. -/
def entryGet : List (String × Node) → String → Option Node
  | [], _ => none
  | (k, v) :: rest, name => if k = name then some v else entryGet rest name

/-- Bind `name` to `n` in a directory listing: an existing entry is replaced
in place, a new one is inserted before the first greater name, so that
listings stay in the ascending order in which a directory is read. -/
def entrySet : List (String × Node) → String → Node → List (String × Node)
  | [], name, n => [(name, n)]
  | (k, v) :: rest, name, n =>
    if k = name then (k, n) :: rest
    else if strLess name k then (name, n) :: (k, v) :: rest
    else (k, v) :: entrySet rest name n

/-- Remove the entry called `name` from a directory listing. -/
def entryDel : List (String × Node) → String → List (String × Node)
  | [], _ => []
  | (k, v) :: rest, name => if k = name then rest else (k, v) :: entryDel rest name

/-- The object reached from `n` along the given entry names, if any. -/
def Node.lookup : Node → List String → Option Node
  | n, [] => some n
  | .file _ _, _ :: _ => none
  | .dir es, c :: cs =>
    match entryGet es c with
    | none => none
    | some ch => ch.lookup cs

/-- Place `new` at the given location below `n`, replacing what is there.
The parent of the location must be an existing directory. -/
def Node.insert : Node → List String → Node → Except Errno Node
  | _, [], _ => .error .EISDIR
  | .file _ _, _ :: _, _ => .error .ENOTDIR
  | .dir es, [c], new => .ok (.dir (entrySet es c new))
  | .dir es, c :: c' :: cs, new =>
    match entryGet es c with
    | none => .error .ENOENT
    | some ch =>
      match Node.insert ch (c' :: cs) new with
      | .error e => .error e
      | .ok ch' => .ok (.dir (entrySet es c ch'))

/-- Unlink the object at the given location below `n`. -/
def Node.remove : Node → List String → Except Errno Node
  | _, [] => .error .EINVAL
  | .file _ _, _ :: _ => .error .ENOTDIR
  | .dir es, [c] =>
    match entryGet es c with
    | none => .error .ENOENT
    | some _ => .ok (.dir (entryDel es c))
  | .dir es, c :: c' :: cs =>
    match entryGet es c with
    | none => .error .ENOENT
    | some ch =>
      match Node.remove ch (c' :: cs) with
      | .error e => .error e
      | .ok ch' => .ok (.dir (entrySet es c ch'))

/-- A chain of new, nested directories named by `cs`, the innermost empty;
for no names, an empty directory. -/
def newDirChain : List String → Node
  | [] => .dir []
  | c :: cs => .dir [(c, newDirChain cs)]

/-- Make the directory at the given location below `n` together with all
missing ancestors; fails when an existing object on the way is a file. -/
def Node.mkdirAll : Node → List String → Except Errno Node
  | .file _ _, _ => .error .ENOTDIR
  | .dir es, [] => .ok (.dir es)
  | .dir es, c :: cs =>
    match entryGet es c with
    | none => .ok (.dir (entrySet es c (newDirChain cs)))
    | some ch =>
      match Node.mkdirAll ch cs with
      | .error e => .error e
      | .ok ch' => .ok (.dir (entrySet es c ch'))

/-- The state of the file system as a process sees it: the tree below `/`,
the working directory (entry names from the root) against which relative
paths are resolved, and the clock reading given to newly written files. -/
structure FS where
  root : Node
  cwd : List String
  now : Int

/-- Where the resolution of a path starts: at the root for a rooted path, at
the working directory for another one. -/
def startLoc (fs : FS) (path : String) : List String :=
  if path.data.head? = some '/' then [] else fs.cwd

/-- The effect of one path element on the location reached so far (entry
names from the root): an empty element and `.` stay, `..` steps up (staying at
the root there), a name steps down. -/
def lexStep (loc : List String) (piece : List Char) : List String :=
  if piece = [] ∨ piece = ['.'] then loc
  else if piece = ['.', '.'] then loc.dropLast
  else loc ++ [⟨piece⟩]

/-- Why the object at `loc` cannot be passed through, if it cannot: it is
missing, or it is a regular file. -/
def Node.notDirAt (root : Node) (loc : List String) : Option Errno :=
  match root.lookup loc with
  | none => some .ENOENT
  | some (.file _ _) => some .ENOTDIR
  | some (.dir _) => none

/-- One path element of the kernel's path walk.  The state is the location
reached and whether it is known to be a directory.  Every element, before it
takes effect, requires the location reached to be an existing directory; after
a name has been stepped onto, that is not yet known. -/
def resolveStep (root : Node) (acc : Except Errno (List String × Bool))
    (piece : List Char) : Except Errno (List String × Bool) :=
  match acc with
  | .error e => .error e
  | .ok (loc, known) =>
    match (if known then none else root.notDirAt loc) with
    | some e => .error e
    | none =>
      .ok (lexStep loc piece,
           decide (piece = [] ∨ piece = ['.'] ∨ piece = ['.', '.']))

/-- The location a path names (entry names from the root), as the kernel
walks it: element by element, each one through an existing directory, so that
`x/..` and `x/` fail when `x` is missing or a regular file.  The last element
itself need not exist.  The empty path names nothing. -/
def resolve (fs : FS) (path : String) : Except Errno (List String) :=
  if path = "" then .error .ENOENT
  else
    match (splitOnChar '/' path.data).foldl (resolveStep fs.root)
        (.ok (startLoc fs path, false)) with
    | .error e => .error e
    | .ok (loc, _) => .ok loc

/-- The location a path names by its elements alone, whatever exists.  For a
path cleaned by `filepath.Clean` this is the location the kernel's walk
reaches, if it reaches one. -/
def lexicalLoc (fs : FS) (path : String) : Option (List String) :=
  if path = "" then none
  else some ((splitOnChar '/' path.data).foldl lexStep (startLoc fs path))

/-- The object a path names, or the error of looking it up. -/
def FS.node (fs : FS) (path : String) : Except Errno Node :=
  match resolve fs path with
  | .error e => .error e
  | .ok loc =>
    match fs.root.lookup loc with
    | none => .error .ENOENT
    | some n => .ok n

/-- Go's `os.Stat` (and `os.Lstat`: there are no symbolic links). -/
def Stat (fs : FS) (path : String) : Except Errno FileInfo :=
  match fs.node path with
  | .error e => .error e
  | .ok n => .ok n.info

/-- Go's `os.MkdirAll(path, 0777)` for a cleaned path, which is what the
program passes (the result of `filepath.Dir`): starting from an existing
directory, the directory at the location the path names is made together with
all missing ancestors; when an existing object on the way is a regular file
nothing is made. -/
def MkdirAll (fs : FS) (path : String) : Except Errno FS :=
  match lexicalLoc fs path with
  | none => .error .ENOENT
  | some loc =>
    match fs.root.notDirAt (startLoc fs path) with
    | some e => .error e
    | none =>
      match fs.root.mkdirAll loc with
      | .error e => .error e
      | .ok r => .ok { fs with root := r }

/-- Write the regular file `new` at `path`: the parent must be an existing
directory and `path` must not name a directory. -/
def writeFile (fs : FS) (path : String) (new : Node) : Except Errno FS :=
  match resolve fs path with
  | .error e => .error e
  | .ok loc =>
    match fs.root.lookup loc with
    | some (.dir _) => .error .EISDIR
    | _ =>
      match fs.root.insert loc new with
      | .error e => .error e
      | .ok r => .ok { fs with root := r }

/-- Go's `os.Create(path)`: the file is created empty, or truncated. -/
def Create (fs : FS) (path : String) : Except Errno FS :=
  writeFile fs path (.file "" fs.now)

/-- Go's `os.Chtimes(path, t, t)`. -/
def Chtimes (fs : FS) (path : String) (t : Int) : Except Errno FS :=
  match fs.node path with
  | .error e => .error e
  | .ok (.dir _) => .ok fs
  | .ok (.file c _) => writeFile fs path (.file c t)

/-- Whether location `a` is `b` or an ancestor of `b`. -/
def isAncestorLoc : List String → List String → Bool
  | [], _ => true
  | _ :: _, [] => false
  | a :: as, b :: bs => a = b && isAncestorLoc as bs

/-- A path without its trailing separators; a path of separators only is the
root. -/
def trimSlashes (path : String) : String :=
  match (path.data.reverse.dropWhile (fun c => c == '/')).reverse with
  | [] => if path = "" then "" else "/"
  | c :: cs => ⟨c :: cs⟩

/-- Go's `os.Rename(oldname, newname)`: moves the object at `oldname` to
`newname`.  Go refuses a `newname` that is an existing directory other than
`oldname` itself; the `rename` system call then lets a regular file replace a
regular file, refuses to put a directory in the place of a file or into itself,
and ignores trailing separators of `newname` when a directory is moved. -/
def Rename (fs : FS) (oldname newname : String) : Except Errno FS :=
  match resolve fs oldname with
  | .error e => .error e
  | .ok s =>
    match fs.root.lookup s with
    | none => .error .ENOENT
    | some n =>
      match resolve fs (if n.info.isDir then trimSlashes newname else newname) with
      | .error e => .error e
      | .ok d =>
        if s = d then .ok fs
        else if isAncestorLoc s d then .error .EINVAL
        else
          match fs.root.lookup d, n with
          | some (.dir _), _ => .error .EEXIST
          | some (.file _ _), .dir _ => .error .ENOTDIR
          | _, _ =>
            match fs.root.remove s with
            | .error e => .error e
            | .ok r1 =>
              match r1.insert d n with
              | .error e => .error e
              | .ok r2 => .ok { fs with root := r2 }

mutual
/-- The paths `filepath.Walk` hands to its callback for the object `n` found
at `path`, in calling order: the object itself, then, for a directory, its
entries in listing order, each under `Join path name`. -/
def walkNode (path : String) : Node → List String
  | .file _ _ => [path]
  | .dir es => path :: walkEntries path es
/-- The callback paths for the entries of the directory at `path`. -/
def walkEntries (path : String) : List (String × Node) → List String
  | [] => []
  | (name, n) :: rest => walkNode (Join path name) n ++ walkEntries path rest
end

/-- Go's `filepath.Walk(root, fn)`, as the sequence of `(path, err)` pairs it
calls `fn` with.  A root that cannot be stat'ed is reported to the callback
with the error; nothing else fails in a tree of files and directories. -/
def Walk (fs : FS) (root : String) : List (String × Option Errno) :=
  match fs.node root with
  | .error e => [(root, some e)]
  | .ok n => (walkNode root n).map (fun p => (p, none))

/-! ## Part 3: the functions of `file.go` -/

/-- The loop of `stringSliceFromFile` over the unread input.  `pending` is
what the current `rd.ReadString('\n')` call has consumed so far.  A newline
completes the call: the line is trimmed and appended to `lines` unless it is
empty.  At the end of the input the call returns `io.EOF` and the loop breaks,
whatever is pending. -/
def readLines (pending : List Char) (lines : List String) : List Char → List String
  | [] => lines
  | c :: cs =>
    if c = '\n' then
      let line := TrimSpace ⟨pending ++ [c]⟩
      readLines [] (if len line > 0 then lines ++ [line] else lines) cs
    else readLines (pending ++ [c]) lines cs

/-- The function `stringSliceFromFile`: read text file by newline into string
slice.  A path that cannot be opened gives the error; reading a directory
fails on the first read. -/
def stringSliceFromFile (fs : FS) (path : String) : List String × Option Errno :=
  match fs.node path with
  | .error e => ([], some e)
  | .ok (.dir _) => ([], some .EISDIR)
  | .ok (.file content _) => (sortStrings (readLines [] [] content.data), none)

/-- The closure `walkFunc` of `stringSliceFromPathWalk`: remove the base path
`p` from `path` and, if more than one byte is left, append what follows the
first byte to `paths`.  It returns the error it was called with. -/
def walkFunc (p : String) (paths : List String) (path : String) (err : Option Errno) :
    List String × Option Errno :=
  let path := replaceFirstWithEmpty path p
  if len path > 1 then (paths ++ [dropFirstByte path], err) else (paths, err)

/-- Run `walkFunc` over the calls `filepath.Walk` makes, stopping at the first
call that returns an error, which becomes the error of the walk. -/
def runWalk (p : String) : List String → List (String × Option Errno) →
    List String × Option Errno
  | paths, [] => (paths, none)
  | paths, (path, err) :: rest =>
    match walkFunc p paths path err with
    | (paths', none) => runWalk p paths' rest
    | (paths', some e) => (paths', some e)

/-- The function `stringSliceFromPathWalk`: recursive walk of directory path
`p` creating the sorted string slice of child paths. -/
def stringSliceFromPathWalk (fs : FS) (p : String) : List String × Option Errno :=
  let (paths, err) := runWalk p [] (Walk fs p)
  (sortStrings paths, err)

/-- The function `mostRecentlyModified`; `flagForcePath` is the program's
global override flag (declared with the command line flags). -/
def mostRecentlyModified (fs : FS) (flagForcePath : Int) (file path1 path2 : String) :
    String × String × Bool :=
  match Stat fs (Join path1 file) with
  | .error _ => ("", "", false)
  | .ok fi1 =>
    if fi1.isDir then ("", "", false)
    else
      match Stat fs (Join path2 file) with
      | .error _ => ("", "", false)
      | .ok fi2 =>
        if fi2.isDir then ("", "", false)
        else if fi1.Unix ≠ fi2.Unix then
          if flagForcePath = 1 then (path1, path2, true)
          else if flagForcePath = 2 then (path2, path1, true)
          else if fi1.Unix > fi2.Unix then (path1, path2, true)
          else if fi2.Unix > fi1.Unix then (path2, path1, true)
          else ("", "", true)
        else ("", "", true)

/-- The function `copyFile`: open the source and take its `FileInfo`, create
(or truncate) the destination, copy the bytes the source then holds, and set
the destination's times to the source's modification time.  Copying from a
directory fails at the first read, after the destination was created. -/
def copyFile (fs : FS) (file srcPath destPath : String) : FS × Option Errno :=
  match fs.node (Join srcPath file) with
  | .error e => (fs, some e)
  | .ok srcNode =>
    let srcInfo := srcNode.info
    let destFullpath := Join destPath file
    match Create fs destFullpath with
    | .error e => (fs, some e)
    | .ok fs1 =>
      match fs1.node (Join srcPath file) with
      | .error e => (fs1, some e)
      | .ok (.dir _) => (fs1, some .EISDIR)
      | .ok (.file content _) =>
        match writeFile fs1 destFullpath (.file content fs1.now) with
        | .error e => (fs1, some e)
        | .ok fs2 =>
          match Chtimes fs2 destFullpath srcInfo.modTime with
          | .error e => (fs2, some e)
          | .ok fs3 => (fs3, none)

/-- The function `copyAll`: copy new files and folders from `srcPath` to
`destPath`, one path of the list per iteration. -/
def copyAll (flagForcePath : Int) (srcPath destPath : String) :
    FS → List String → FS × Option Errno
  | fs, [] => (fs, none)
  | fs, path :: rest =>
    match Stat fs (Join srcPath path) with
    | .error _ => copyAll flagForcePath srcPath destPath fs rest
    | .ok fi =>
      let destDir := Dir (Join destPath path)
      match MkdirAll fs destDir with
      | .error e => (fs, some e)
      | .ok fs1 =>
        if fi.isDir then copyAll flagForcePath srcPath destPath fs1 rest
        else
          let (src, _, found) := mostRecentlyModified fs1 flagForcePath path srcPath destPath
          if !found || src = srcPath then
            match copyFile fs1 path srcPath destPath with
            | (fs2, some e) => (fs2, some e)
            | (fs2, none) => copyAll flagForcePath srcPath destPath fs2 rest
          else copyAll flagForcePath srcPath destPath fs1 rest

/-- The search loop of `RenameFolder`, from counter value `x`: increment,
format the candidate, stop at the first candidate that cannot be stat'ed.
`fuel` bounds the number of iterations; `none` means it was used up. -/
def renameSearch (fs : FS) (dest : String) : Nat → Int → Option String
  | 0, _ => none
  | fuel + 1, x =>
    let x := incInt x
    let newDir := sprintfSuffix dest x
    match Stat fs newDir with
    | .error _ => some newDir
    | .ok _ => renameSearch fs dest fuel x

/-- The function `RenameFolder`: rename folder `src` to `dest`; if `dest`
already exists, append ` (x)` to the name, incrementing `x` until the path is
not found.  Returns the new state, the path used and the error. -/
def RenameFolder (fuel : Nat) (fs : FS) (src dest : String) :
    Option (FS × String × Option Errno) :=
  let found : Option String :=
    match Stat fs dest with
    | .ok _ => renameSearch fs dest fuel 0
    | .error _ => some dest
  match found with
  | none => none
  | some dest =>
    match MkdirAll fs (Dir dest) with
    | .error e => some (fs, dest, some e)
    | .ok fs1 =>
      match Rename fs1 src dest with
      | .error e => some (fs1, dest, some e)
      | .ok fs2 => some (fs2, dest, none)

/-! ## Part 4: example states and specification-side definitions -/

/-- Two roots `a` and `b` in the working directory `/`.  File `f` is newer
under `b`, file `g` is newer under `a`, file `h` has the same time under both;
`sub` is a directory under both; `only` exists under `a` alone. -/
def twoRoots : FS :=
  { root := .dir
      [("a", .dir [("f", .file "old" 1000000000), ("g", .file "new" 5000000000),
                   ("h", .file "left" 3000000000), ("only", .file "x" 3000000000),
                   ("sub", .dir [])]),
       ("b", .dir [("f", .file "new" 2000000000), ("g", .file "old" 4999999999),
                   ("h", .file "right" 3999999999), ("sub", .dir [])])]
    cwd := []
    now := 9000000000 }

/-- Whether something occupies `path`: `os.Stat` succeeds on it. -/
def occupied (fs : FS) (path : String) : Bool :=
  match Stat fs path with
  | .ok _ => true
  | .error _ => false

/-- Whether the object `m` is kept as `m'`: a regular file with its content
and time, a directory as a directory. -/
def keptAs : Node → Node → Bool
  | .file c t, .file c' t' => c = c' && t = t'
  | .dir _, .dir _ => true
  | _, _ => false

/-- A directory `t` holding `dir1`, `dir1 (1)` and `dir3`, as after the first
step of the rename test, which moved `dir2` to `dir1 (1)`. -/
def renameFS : FS :=
  { root := .dir
      [("t", .dir [("dir1", .dir [("file1", .file "abcde" 0)]),
                   ("dir1 (1)", .dir [("file2", .file "a" 0)]),
                   ("dir3", .dir [("file3", .file "" 0)])])]
    cwd := []
    now := 0 }

/-- The manifest entries as the specification words them: the content split
into its newline-delimited entries, each trimmed of surrounding white space,
the blank ones discarded, the rest sorted ascending. -/
def manifestEntries (content : String) : List String :=
  sortStrings
    (((splitOnChar '\n' content.data).map (fun l => TrimSpace ⟨l⟩)).filter
      (fun l => len l > 0))

/-- The trimmed line is kept unless it is empty. -/
def keepLine (l : List Char) : List String :=
  if len (TrimSpace ⟨l⟩) > 0 then [TrimSpace ⟨l⟩] else []

/-- A root `r` with three manifests: the two contents of the repository's
test, and one whose last entry is not followed by a newline. -/
def manifestFS : FS :=
  { root := .dir
      [("r", .dir [(".ssync-a", .file "hello\nworld\n!\n" 0),
                   (".ssync-b", .file "\n\n  \n0 \n" 0),
                   (".ssync-c", .file "hello\nworld" 0)])]
    cwd := []
    now := 0 }

/-- A tree `r` like the one of the repository's tests, with `r` as the working
directory, so that `.` and `/r` name the same directory. -/
def listerFS : FS :=
  { root := .dir
      [("r", .dir [(".ssync-test", .file "" 0),
                   ("dir1", .dir [("dir2", .dir [("file3", .file "abcde" 0)]),
                                  ("file2", .file "a" 0)]),
                   ("file1", .file "" 0)])]
    cwd := ["r"]
    now := 0 }

/-- The content of the regular file at `path`, if there is one. -/
def readFile (fs : FS) (path : String) : Option String :=
  match fs.node path with
  | .ok (.file content _) => some content
  | _ => none

/-- A source root `s` with a file and a directory without entries, and an
empty destination root `d`. -/
def emptyDirFS : FS :=
  { root := .dir
      [("d", .dir []),
       ("s", .dir [("e", .dir []), ("file1", .file "one" 7000000000)])]
    cwd := []
    now := 9000000000 }

/-- A source root `s` with files `a`, `b` and `x/y`; in the destination root
`d`, `a` is a directory and `x` is a file. -/
def clashFS : FS :=
  { root := .dir
      [("d", .dir [("a", .dir []), ("x", .file "" 1000000000)]),
       ("s", .dir [("a", .file "A" 1000000000), ("b", .file "B" 1000000000),
                   ("x", .dir [("y", .file "Y" 1000000000)])])]
    cwd := []
    now := 9000000000 }

/-- The working directory `w` holds `f` and a destination root `d` whose `f`
has the same modification time and another content. -/
def cwdRootFS : FS :=
  { root := .dir
      [("w", .dir [("d", .dir [("f", .file "theirs" 5000000000)]),
                   ("f", .file "ours" 5000000000)])]
    cwd := ["w"]
    now := 9000000000 }

/-! ## Part 5: theorems -/

/-! ### The freshness resolver -/

/-- C1: with no override (`flagForcePath = 0`), when both copies can be
stat'ed, are regular files and have modification times that differ in whole
seconds, `mostRecentlyModified` returns `(path1, path2, true)` if the copy
under `path1` is strictly later and `(path2, path1, true)` if the copy under
`path2` is. -/
theorem mostRecentlyModified_later_is_source (fs : FS) (file path1 path2 : String)
    (fi1 fi2 : FileInfo)
    (h1 : Stat fs (Join path1 file) = .ok fi1) (hd1 : fi1.isDir = false)
    (h2 : Stat fs (Join path2 file) = .ok fi2) (hd2 : fi2.isDir = false)
    (hne : fi1.Unix ≠ fi2.Unix) :
    (fi1.Unix > fi2.Unix →
      mostRecentlyModified fs 0 file path1 path2 = (path1, path2, true)) ∧
    (fi2.Unix > fi1.Unix →
      mostRecentlyModified fs 0 file path1 path2 = (path2, path1, true)) := by
  constructor
  · intro hgt
    simp [mostRecentlyModified, h1, h2, hd1, hd2, hne, hgt]
  · intro hgt
    have hngt : ¬ fi2.Unix < fi1.Unix := not_lt.mpr (le_of_lt hgt)
    simp [mostRecentlyModified, h1, h2, hd1, hd2, hne, hgt, hngt]

/-- Witness for C1: in `twoRoots`, file `g` is newer under `a` and file `f`
is newer under `b`; each time the root with the newer copy is named as the
source. -/
theorem mostRecentlyModified_later_is_source_witness :
    mostRecentlyModified twoRoots 0 "g" "a" "b" = ("a", "b", true) ∧
    mostRecentlyModified twoRoots 0 "f" "a" "b" = ("b", "a", true) :=
  ⟨(mostRecentlyModified_later_is_source twoRoots "g" "a" "b"
      ⟨false, 5000000000⟩ ⟨false, 4999999999⟩
      (by decide) rfl (by decide) rfl (by decide)).1 (by decide),
   (mostRecentlyModified_later_is_source twoRoots "f" "a" "b"
      ⟨false, 1000000000⟩ ⟨false, 2000000000⟩
      (by decide) rfl (by decide) rfl (by decide)).2 (by decide)⟩

/-- C2: when both copies can be stat'ed, are regular files and have
modification times that differ in whole seconds, `flagForcePath = 1` makes
`mostRecentlyModified` return `(path1, path2, true)` and `flagForcePath = 2`
makes it return `(path2, path1, true)`, whichever copy is newer. -/
theorem mostRecentlyModified_override (fs : FS) (file path1 path2 : String)
    (fi1 fi2 : FileInfo)
    (h1 : Stat fs (Join path1 file) = .ok fi1) (hd1 : fi1.isDir = false)
    (h2 : Stat fs (Join path2 file) = .ok fi2) (hd2 : fi2.isDir = false)
    (hne : fi1.Unix ≠ fi2.Unix) :
    mostRecentlyModified fs 1 file path1 path2 = (path1, path2, true) ∧
    mostRecentlyModified fs 2 file path1 path2 = (path2, path1, true) := by
  constructor <;> simp [mostRecentlyModified, h1, h2, hd1, hd2, hne]

/-- Witness for C2: in `twoRoots`, file `f` is strictly older under `a`, and
the override still names `a` as the source. -/
theorem mostRecentlyModified_override_witness :
    (⟨false, 1000000000⟩ : FileInfo).Unix < (⟨false, 2000000000⟩ : FileInfo).Unix ∧
    mostRecentlyModified twoRoots 1 "f" "a" "b" = ("a", "b", true) ∧
    mostRecentlyModified twoRoots 2 "f" "a" "b" = ("b", "a", true) :=
  ⟨by decide,
   mostRecentlyModified_override twoRoots "f" "a" "b"
    ⟨false, 1000000000⟩ ⟨false, 2000000000⟩
    (by decide) rfl (by decide) rfl (by decide)⟩

/-- C10, as the claim states it, fails: `only` cannot be stat'ed under root
`b`, and the decision flag returned is `false`, not `true`. -/
theorem mostRecentlyModified_missing_not_true :
    Stat twoRoots (Join "b" "only") = .error .ENOENT ∧
    mostRecentlyModified twoRoots 0 "only" "a" "b" ≠ ("", "", true) := by
  decide

/-- C10, amended: if either copy cannot be stat'ed or is a directory, then
`mostRecentlyModified` returns both strings empty and the flag `false`,
whatever the time stamps and whatever `flagForcePath`. -/
theorem mostRecentlyModified_inapplicable (fs : FS) (flagForcePath : Int)
    (file path1 path2 : String)
    (h : (∀ fi, Stat fs (Join path1 file) = .ok fi → fi.isDir = true) ∨
         (∀ fi, Stat fs (Join path2 file) = .ok fi → fi.isDir = true)) :
    mostRecentlyModified fs flagForcePath file path1 path2 = ("", "", false) := by
  unfold mostRecentlyModified
  rcases h with h | h
  · cases h1 : Stat fs (Join path1 file) with
    | error e => rfl
    | ok fi1 => simp [h fi1 h1]
  · cases h1 : Stat fs (Join path1 file) with
    | error e => rfl
    | ok fi1 =>
      cases h2 : Stat fs (Join path2 file) with
      | error e => simp
      | ok fi2 => simp [h fi2 h2]

/-- Witness for C10, amended: `sub` is a directory under `a`, and a forced
direction changes nothing. -/
theorem mostRecentlyModified_inapplicable_witness :
    Stat twoRoots (Join "a" "sub") = .ok ⟨true, 0⟩ ∧
    mostRecentlyModified twoRoots 1 "sub" "a" "b" = ("", "", false) :=
  ⟨by decide,
   mostRecentlyModified_inapplicable twoRoots 1 "sub" "a" "b"
    (Or.inl (fun fi hfi => by
      have h : Stat twoRoots (Join "a" "sub") = .ok ⟨true, 0⟩ := by decide
      rw [h] at hfi
      cases hfi
      rfl))⟩

/-! ### Lookup after an update of the tree -/

theorem entryGet_entrySet (es : List (String × Node)) (c d : String) (n : Node) :
    entryGet (entrySet es c n) d = if c = d then some n else entryGet es d := by
  induction es with
  | nil =>
    by_cases h : c = d <;> simp [entrySet, entryGet, h]
  | cons hd tl ih =>
    obtain ⟨k, v⟩ := hd
    by_cases h : c = d
    · subst h
      by_cases hk : k = c
      · simp [entrySet, entryGet, hk]
      · by_cases hl : strLess c k = true
        · simp [entrySet, entryGet, hk, hl]
        · simp [entrySet, entryGet, hk, hl, ih]
    · by_cases hk : k = c
      · subst hk
        simp [entrySet, entryGet, h]
      · by_cases hl : strLess c k = true
        · simp [entrySet, entryGet, hk, hl, h]
        · simp [entrySet, entryGet, hk, hl, h, ih]

/-- Making directories leaves every regular file where and as it was. -/
theorem mkdirAll_lookup_file :
    ∀ (loc : List String) (n n' : Node) (q : List String) (c : String) (t : Int),
      n.mkdirAll loc = .ok n' → n.lookup q = some (.file c t) →
      n'.lookup q = some (.file c t) := by
  intro loc
  induction loc with
  | nil =>
    intro n n' q c t hm hl
    cases n with
    | file c0 t0 => simp [Node.mkdirAll] at hm
    | dir es =>
      simp only [Node.mkdirAll, Except.ok.injEq] at hm
      rw [← hm]; exact hl
  | cons a as ih =>
    intro n n' q c t hm hl
    cases n with
    | file c0 t0 => simp [Node.mkdirAll] at hm
    | dir es =>
      cases q with
      | nil => simp [Node.lookup] at hl
      | cons d ds =>
        simp only [Node.mkdirAll] at hm
        simp only [Node.lookup] at hl
        cases hg : entryGet es a with
        | none =>
          rw [hg] at hm
          simp only [Except.ok.injEq] at hm
          rw [← hm]
          simp only [Node.lookup, entryGet_entrySet]
          by_cases had : a = d
          · rw [← had, hg] at hl
            simp at hl
          · simp only [had, if_false]
            exact hl
        | some ch =>
          rw [hg] at hm
          simp only [] at hm
          cases hch : Node.mkdirAll ch as with
          | error e => rw [hch] at hm; simp at hm
          | ok ch' =>
            rw [hch] at hm
            simp only [Except.ok.injEq] at hm
            rw [← hm]
            simp only [Node.lookup, entryGet_entrySet]
            by_cases had : a = d
            · simp only [had, if_true]
              rw [← had, hg] at hl
              simp only [] at hl
              exact ih ch ch' ds c t hch hl
            · simp only [had, if_false]
              exact hl

/-- Making directories keeps every directory a directory. -/
theorem mkdirAll_lookup_dir :
    ∀ (loc : List String) (n n' : Node) (q : List String) (es : List (String × Node)),
      n.mkdirAll loc = .ok n' → n.lookup q = some (.dir es) →
      ∃ es', n'.lookup q = some (.dir es') := by
  intro loc
  induction loc with
  | nil =>
    intro n n' q es hm hl
    cases n with
    | file c0 t0 => simp [Node.mkdirAll] at hm
    | dir es0 =>
      simp only [Node.mkdirAll, Except.ok.injEq] at hm
      rw [← hm]; exact ⟨es, hl⟩
  | cons a as ih =>
    intro n n' q es hm hl
    cases n with
    | file c0 t0 => simp [Node.mkdirAll] at hm
    | dir es0 =>
      simp only [Node.mkdirAll] at hm
      cases hg : entryGet es0 a with
      | none =>
        rw [hg] at hm
        simp only [Except.ok.injEq] at hm
        rw [← hm]
        cases q with
        | nil => exact ⟨_, rfl⟩
        | cons d ds =>
          simp only [Node.lookup] at hl
          simp only [Node.lookup, entryGet_entrySet]
          by_cases had : a = d
          · rw [← had, hg] at hl
            simp at hl
          · simp only [had, if_false]
            exact ⟨es, hl⟩
      | some ch =>
        rw [hg] at hm
        simp only [] at hm
        cases hch : Node.mkdirAll ch as with
        | error e => rw [hch] at hm; simp at hm
        | ok ch' =>
          rw [hch] at hm
          simp only [Except.ok.injEq] at hm
          rw [← hm]
          cases q with
          | nil => exact ⟨_, rfl⟩
          | cons d ds =>
            simp only [Node.lookup] at hl
            simp only [Node.lookup, entryGet_entrySet]
            by_cases had : a = d
            · simp only [had, if_true]
              rw [← had, hg] at hl
              simp only [] at hl
              exact ih ch ch' ds es hch hl
            · simp only [had, if_false]
              exact ⟨es, hl⟩

/-- There is no regular file in a chain of new directories. -/
theorem newDirChain_lookup_file :
    ∀ (cs q : List String) (c : String) (t : Int),
      (newDirChain cs).lookup q ≠ some (.file c t) := by
  intro cs
  induction cs with
  | nil =>
    intro q c t
    cases q with
    | nil => simp [newDirChain, Node.lookup]
    | cons d ds => simp [newDirChain, Node.lookup, entryGet]
  | cons a as ih =>
    intro q c t
    cases q with
    | nil => simp [newDirChain, Node.lookup]
    | cons d ds =>
      simp only [newDirChain, Node.lookup, entryGet]
      by_cases had : a = d
      · simp only [had, if_true]
        exact ih ds c t
      · simp [had]

/-- A regular file found after making directories was there before. -/
theorem mkdirAll_lookup_file_rev :
    ∀ (loc : List String) (n n' : Node) (q : List String) (c : String) (t : Int),
      n.mkdirAll loc = .ok n' → n'.lookup q = some (.file c t) →
      n.lookup q = some (.file c t) := by
  intro loc
  induction loc with
  | nil =>
    intro n n' q c t hm hl
    cases n with
    | file c0 t0 => simp [Node.mkdirAll] at hm
    | dir es0 =>
      simp only [Node.mkdirAll, Except.ok.injEq] at hm
      rw [hm]; exact hl
  | cons a as ih =>
    intro n n' q c t hm hl
    cases n with
    | file c0 t0 => simp [Node.mkdirAll] at hm
    | dir es0 =>
      simp only [Node.mkdirAll] at hm
      cases hg : entryGet es0 a with
      | none =>
        rw [hg] at hm
        simp only [Except.ok.injEq] at hm
        rw [← hm] at hl
        cases q with
        | nil => simp [Node.lookup] at hl
        | cons d ds =>
          simp only [Node.lookup, entryGet_entrySet] at hl
          simp only [Node.lookup]
          by_cases had : a = d
          · simp only [had, if_true] at hl
            exact absurd hl (newDirChain_lookup_file as ds c t)
          · simp only [had, if_false] at hl
            exact hl
      | some ch =>
        rw [hg] at hm
        simp only [] at hm
        cases hch : Node.mkdirAll ch as with
        | error e => rw [hch] at hm; simp at hm
        | ok ch' =>
          rw [hch] at hm
          simp only [Except.ok.injEq] at hm
          rw [← hm] at hl
          cases q with
          | nil => simp [Node.lookup] at hl
          | cons d ds =>
            simp only [Node.lookup, entryGet_entrySet] at hl
            simp only [Node.lookup]
            by_cases had : a = d
            · simp only [had, if_true] at hl
              rw [← had, hg]
              simp only []
              exact ih ch ch' ds c t hch hl
            · simp only [had, if_false] at hl
              exact hl

/-- Where the directory to make exists already, every directory found
afterwards was there before. -/
theorem mkdirAll_lookup_dir_rev :
    ∀ (loc : List String) (n n' : Node) (q : List String)
      (es es' : List (String × Node)),
      n.lookup loc = some (.dir es) → n.mkdirAll loc = .ok n' →
      n'.lookup q = some (.dir es') → ∃ es'', n.lookup q = some (.dir es'') := by
  intro loc
  induction loc with
  | nil =>
    intro n n' q es es' hex hm hl
    cases n with
    | file c0 t0 => simp [Node.mkdirAll] at hm
    | dir es0 =>
      simp only [Node.mkdirAll, Except.ok.injEq] at hm
      rw [hm]; exact ⟨es', hl⟩
  | cons a as ih =>
    intro n n' q es es' hex hm hl
    cases n with
    | file c0 t0 => simp [Node.mkdirAll] at hm
    | dir es0 =>
      simp only [Node.mkdirAll] at hm
      simp only [Node.lookup] at hex
      cases hg : entryGet es0 a with
      | none => rw [hg] at hex; simp at hex
      | some ch =>
        rw [hg] at hm hex
        simp only [] at hm hex
        cases hch : Node.mkdirAll ch as with
        | error e => rw [hch] at hm; simp at hm
        | ok ch' =>
          rw [hch] at hm
          simp only [Except.ok.injEq] at hm
          rw [← hm] at hl
          cases q with
          | nil => exact ⟨_, rfl⟩
          | cons d ds =>
            simp only [Node.lookup, entryGet_entrySet] at hl
            simp only [Node.lookup]
            by_cases had : a = d
            · simp only [had, if_true] at hl
              rw [← had, hg]
              simp only []
              exact ih ch ch' ds es es' hex hch hl
            · simp only [had, if_false] at hl
              exact ⟨es', hl⟩

/-- After a successful insertion the new object is found at its location. -/
theorem insert_lookup_self :
    ∀ (p : List String) (n n' new : Node),
      n.insert p new = .ok n' → n'.lookup p = some new := by
  intro p
  induction p with
  | nil => intro n n' new h; simp [Node.insert] at h
  | cons a rest ih =>
    intro n n' new h
    cases n with
    | file c0 t0 => simp [Node.insert] at h
    | dir es =>
      cases rest with
      | nil =>
        simp only [Node.insert, Except.ok.injEq] at h
        rw [← h]
        simp [Node.lookup, entryGet_entrySet]
      | cons b cs =>
        simp only [Node.insert] at h
        cases hg : entryGet es a with
        | none => rw [hg] at h; simp at h
        | some ch =>
          rw [hg] at h
          simp only [] at h
          cases hch : Node.insert ch (b :: cs) new with
          | error e => rw [hch] at h; simp at h
          | ok ch' =>
            rw [hch] at h
            simp only [Except.ok.injEq] at h
            rw [← h]
            simp only [Node.lookup, entryGet_entrySet, if_true]
            exact ih ch ch' new hch

/-- Nothing is found below a regular file. -/
theorem lookup_file_cons (c : String) (t : Int) (d : String) (ds : List String) :
    (Node.file c t).lookup (d :: ds) = none := rfl

/-- Writing a regular file where there was no directory changes the
`FileInfo` found at no other location. -/
theorem insert_lookup_other :
    ∀ (p : List String) (n n' : Node) (c : String) (t : Int) (q : List String),
      n.insert p (.file c t) = .ok n' →
      (∀ es, n.lookup p ≠ some (.dir es)) → q ≠ p →
      (n'.lookup q).map Node.info = (n.lookup q).map Node.info := by
  intro p
  induction p with
  | nil => intro n n' c t q h; simp [Node.insert] at h
  | cons a rest ih =>
    intro n n' c t q h hnd hq
    cases n with
    | file c0 t0 => simp [Node.insert] at h
    | dir es =>
      cases rest with
      | nil =>
        simp only [Node.insert, Except.ok.injEq] at h
        rw [← h]
        cases q with
        | nil => simp [Node.lookup, Node.info]
        | cons d ds =>
          simp only [Node.lookup, entryGet_entrySet]
          by_cases had : a = d
          · subst had
            simp only [if_true]
            cases ds with
            | nil => exact absurd rfl hq
            | cons x xs =>
              rw [lookup_file_cons]
              cases hg : entryGet es a with
              | none => rfl
              | some ch =>
                cases ch with
                | file c1 t1 => rfl
                | dir es1 =>
                  exfalso
                  apply hnd es1
                  simp [Node.lookup, hg]
          · simp only [had, if_false]
      | cons b cs =>
        simp only [Node.insert] at h
        cases hg : entryGet es a with
        | none => rw [hg] at h; simp at h
        | some ch =>
          rw [hg] at h
          simp only [] at h
          cases hch : Node.insert ch (b :: cs) (.file c t) with
          | error e => rw [hch] at h; simp at h
          | ok ch' =>
            rw [hch] at h
            simp only [Except.ok.injEq] at h
            rw [← h]
            cases q with
            | nil => simp [Node.lookup, Node.info]
            | cons d ds =>
              simp only [Node.lookup, entryGet_entrySet]
              by_cases had : a = d
              · subst had
                simp only [if_true, hg]
                apply ih ch ch' c t ds hch
                · intro es1 hl
                  apply hnd es1
                  simp only [Node.lookup, hg]
                  exact hl
                · intro hds
                  apply hq
                  rw [hds]
              · simp only [had, if_false]

/-! ### What a change of the tree keeps -/

/-- Every object is kept as itself. -/
theorem keptAs_refl (m : Node) : keptAs m m = true := by
  cases m with
  | file c t => simp [keptAs]
  | dir es => rfl

/-- A regular file is kept only as itself. -/
theorem keptAs_file (c : String) (t : Int) (m' : Node)
    (h : keptAs (.file c t) m' = true) : m' = .file c t := by
  cases m' with
  | file c' t' =>
    simp only [keptAs, Bool.and_eq_true, decide_eq_true_eq] at h
    rw [h.1, h.2]
  | dir es => simp [keptAs] at h

/-- A directory is kept only as a directory. -/
theorem keptAs_dir (es : List (String × Node)) (m' : Node)
    (h : keptAs (.dir es) m' = true) : ∃ es', m' = .dir es' := by
  cases m' with
  | file c' t' => simp [keptAs] at h
  | dir es' => exact ⟨es', rfl⟩

/-- What is kept twice is kept. -/
theorem keptAs_trans (m m' m'' : Node) (h1 : keptAs m m' = true)
    (h2 : keptAs m' m'' = true) : keptAs m m'' = true := by
  cases m with
  | file c t =>
    rw [keptAs_file c t m' h1] at h2
    exact h2
  | dir es =>
    obtain ⟨es', h'⟩ := keptAs_dir es m' h1
    rw [h'] at h2
    obtain ⟨es'', h''⟩ := keptAs_dir es' m'' h2
    rw [h'']
    rfl

/-- Looking up a location in two steps. -/
theorem lookup_append :
    ∀ (a : List String) (n : Node) (b : List String),
      n.lookup (a ++ b) = (n.lookup a).bind (fun x => x.lookup b) := by
  intro a
  induction a with
  | nil => intro n b; simp [Node.lookup]
  | cons c cs ih =>
    intro n b
    cases n with
    | file c0 t0 => simp [Node.lookup]
    | dir es =>
      simp only [List.cons_append, Node.lookup]
      cases entryGet es c with
      | none => simp
      | some ch => simp only []; exact ih ch b

/-- What has something below it is a directory. -/
theorem lookup_prefix_dir (n : Node) (a b : List String) (m : Node)
    (hb : b ≠ []) (h : n.lookup (a ++ b) = some m) :
    ∃ es, n.lookup a = some (.dir es) := by
  rw [lookup_append] at h
  cases ha : n.lookup a with
  | none => rw [ha] at h; simp at h
  | some x =>
    rw [ha] at h
    simp only [Option.some_bind] at h
    cases x with
    | dir es => exact ⟨es, rfl⟩
    | file c t =>
      cases b with
      | nil => exact absurd rfl hb
      | cons d ds => simp [Node.lookup] at h

/-- A location with an ancestor is the ancestor's location and a rest. -/
theorem isAncestorLoc_append :
    ∀ (d q : List String), isAncestorLoc d q = true → ∃ b, q = d ++ b := by
  intro d
  induction d with
  | nil => intro q _; exact ⟨q, rfl⟩
  | cons a as ih =>
    intro q h
    cases q with
    | nil => simp [isAncestorLoc] at h
    | cons x xs =>
      simp only [isAncestorLoc, Bool.and_eq_true, decide_eq_true_eq] at h
      obtain ⟨b, hb⟩ := ih xs h.2
      exact ⟨b, by rw [h.1, hb]; rfl⟩

/-- Where something is found, something is found at every ancestor. -/
theorem lookup_ancestor (n : Node) (d q : List String) (m : Node)
    (ha : isAncestorLoc d q = true) (h : n.lookup q = some m) :
    ∃ m', n.lookup d = some m' := by
  obtain ⟨b, hb⟩ := isAncestorLoc_append d q ha
  rw [hb, lookup_append] at h
  cases hd : n.lookup d with
  | none => rw [hd] at h; simp at h
  | some x => exact ⟨x, rfl⟩

/-- The parent of a directory is a directory. -/
theorem notDirAt_dropLast (root : Node) (loc : List String)
    (h : root.notDirAt loc = none) : root.notDirAt loc.dropLast = none := by
  by_cases hl : loc = []
  · rw [hl]; rw [hl] at h; exact h
  · unfold Node.notDirAt at h
    cases hlk : root.lookup loc with
    | none => rw [hlk] at h; simp at h
    | some m =>
      have hsplit : loc = loc.dropLast ++ [loc.getLast hl] :=
        (List.dropLast_append_getLast hl).symm
      rw [hsplit] at hlk
      obtain ⟨es, hes⟩ := lookup_prefix_dir root _ _ m (by simp) hlk
      unfold Node.notDirAt
      rw [hes]

theorem entryGet_entryDel (es : List (String × Node)) (c d : String) (h : c ≠ d) :
    entryGet (entryDel es c) d = entryGet es d := by
  induction es with
  | nil => rfl
  | cons hd tl ih =>
    obtain ⟨k, v⟩ := hd
    by_cases hk : k = c
    · subst hk
      simp [entryDel, entryGet, h]
    · by_cases hkd : k = d
      · subst hkd
        simp [entryDel, entryGet, hk]
      · simp [entryDel, entryGet, hk, hkd, ih]

/-- Making directories keeps every object. -/
theorem mkdirAll_kept (loc : List String) (n n' : Node) (q : List String) (m : Node)
    (hm : n.mkdirAll loc = .ok n') (hl : n.lookup q = some m) :
    ∃ m', n'.lookup q = some m' ∧ keptAs m m' = true := by
  cases m with
  | file c t =>
    exact ⟨_, mkdirAll_lookup_file loc n n' q c t hm hl, keptAs_refl _⟩
  | dir es =>
    obtain ⟨es', h'⟩ := mkdirAll_lookup_dir loc n n' q es hm hl
    exact ⟨_, h', rfl⟩

/-- Removing an object keeps every object that is not it or inside it. -/
theorem remove_kept :
    ∀ (s : List String) (n n' : Node) (q : List String) (m : Node),
      n.remove s = .ok n' → isAncestorLoc s q = false → n.lookup q = some m →
      ∃ m', n'.lookup q = some m' ∧ keptAs m m' = true := by
  intro s
  induction s with
  | nil => intro n n' q m h; simp [Node.remove] at h
  | cons a rest ih =>
    intro n n' q m h hout hl
    cases n with
    | file c0 t0 => simp [Node.remove] at h
    | dir es =>
      cases rest with
      | nil =>
        simp only [Node.remove] at h
        cases hg : entryGet es a with
        | none => rw [hg] at h; simp at h
        | some ch =>
          rw [hg] at h
          simp only [Except.ok.injEq] at h
          rw [← h]
          cases q with
          | nil =>
            simp only [Node.lookup, Option.some.injEq] at hl
            rw [← hl]
            exact ⟨_, rfl, rfl⟩
          | cons d ds =>
            have had : a ≠ d := by
              intro e
              simp [isAncestorLoc, e] at hout
            simp only [Node.lookup, entryGet_entryDel es a d had]
            simp only [Node.lookup] at hl
            exact ⟨m, hl, keptAs_refl m⟩
      | cons b cs =>
        simp only [Node.remove] at h
        cases hg : entryGet es a with
        | none => rw [hg] at h; simp at h
        | some ch =>
          rw [hg] at h
          simp only [] at h
          cases hch : Node.remove ch (b :: cs) with
          | error e => rw [hch] at h; simp at h
          | ok ch' =>
            rw [hch] at h
            simp only [Except.ok.injEq] at h
            rw [← h]
            cases q with
            | nil =>
              simp only [Node.lookup, Option.some.injEq] at hl
              rw [← hl]
              exact ⟨_, rfl, rfl⟩
            | cons d ds =>
              simp only [Node.lookup, entryGet_entrySet]
              simp only [Node.lookup] at hl
              by_cases had : a = d
              · subst had
                simp only [if_true]
                rw [hg] at hl
                simp only [] at hl
                have hout' : isAncestorLoc (b :: cs) ds = false := by
                  simpa [isAncestorLoc] using hout
                exact ih ch ch' ds m hch hout' hl
              · simp only [had, if_false]
                exact ⟨m, hl, keptAs_refl m⟩

/-- Placing an object keeps every object that is not at or below the place. -/
theorem insert_kept :
    ∀ (d : List String) (n n' new : Node) (q : List String) (m : Node),
      n.insert d new = .ok n' → isAncestorLoc d q = false → n.lookup q = some m →
      ∃ m', n'.lookup q = some m' ∧ keptAs m m' = true := by
  intro d
  induction d with
  | nil => intro n n' new q m h; simp [Node.insert] at h
  | cons a rest ih =>
    intro n n' new q m h hout hl
    cases n with
    | file c0 t0 => simp [Node.insert] at h
    | dir es =>
      cases rest with
      | nil =>
        simp only [Node.insert, Except.ok.injEq] at h
        rw [← h]
        cases q with
        | nil =>
          simp only [Node.lookup, Option.some.injEq] at hl
          rw [← hl]
          exact ⟨_, rfl, rfl⟩
        | cons x xs =>
          have hax : a ≠ x := by
            intro e
            simp [isAncestorLoc, e] at hout
          simp only [Node.lookup, entryGet_entrySet, hax, if_false]
          simp only [Node.lookup] at hl
          exact ⟨m, hl, keptAs_refl m⟩
      | cons b cs =>
        simp only [Node.insert] at h
        cases hg : entryGet es a with
        | none => rw [hg] at h; simp at h
        | some ch =>
          rw [hg] at h
          simp only [] at h
          cases hch : Node.insert ch (b :: cs) new with
          | error e => rw [hch] at h; simp at h
          | ok ch' =>
            rw [hch] at h
            simp only [Except.ok.injEq] at h
            rw [← h]
            cases q with
            | nil =>
              simp only [Node.lookup, Option.some.injEq] at hl
              rw [← hl]
              exact ⟨_, rfl, rfl⟩
            | cons x xs =>
              simp only [Node.lookup, entryGet_entrySet]
              simp only [Node.lookup] at hl
              by_cases hax : a = x
              · subst hax
                simp only [if_true]
                rw [hg] at hl
                simp only [] at hl
                have hout' : isAncestorLoc (b :: cs) xs = false := by
                  simpa [isAncestorLoc] using hout
                exact ih ch ch' new xs m hch hout' hl
              · simp only [hax, if_false]
                exact ⟨m, hl, keptAs_refl m⟩

/-! ### Walking a path in a changed tree -/

/-- An error stops the walk. -/
theorem foldl_resolveStep_error (root : Node) (e : Errno) (ps : List (List Char)) :
    ps.foldl (resolveStep root) (.error e) = .error e := by
  induction ps with
  | nil => rfl
  | cons p ps ih => simpa [List.foldl_cons, resolveStep] using ih

/-- What was an existing directory stays passable when every directory is
kept. -/
theorem notDirAt_kept (root root' : Node)
    (hk : ∀ loc es, root.lookup loc = some (.dir es) →
      ∃ es', root'.lookup loc = some (.dir es'))
    (loc : List String) (h : root.notDirAt loc = none) : root'.notDirAt loc = none := by
  unfold Node.notDirAt at h ⊢
  cases hl : root.lookup loc with
  | none => rw [hl] at h; simp at h
  | some m =>
    rw [hl] at h
    cases m with
    | file c t => simp at h
    | dir es =>
      obtain ⟨es', h'⟩ := hk loc es hl
      rw [h']

/-- A walk that succeeds succeeds with the same result in every tree that
keeps the directories. -/
theorem foldl_resolveStep_kept (root root' : Node)
    (hk : ∀ loc es, root.lookup loc = some (.dir es) →
      ∃ es', root'.lookup loc = some (.dir es')) :
    ∀ (ps : List (List Char)) (acc : Except Errno (List String × Bool))
      (st : List String × Bool),
      ps.foldl (resolveStep root) acc = .ok st →
      ps.foldl (resolveStep root') acc = .ok st := by
  intro ps
  induction ps with
  | nil => intro acc st h; exact h
  | cons p ps ih =>
    intro acc st h
    simp only [List.foldl_cons] at h ⊢
    cases acc with
    | error e =>
      simp only [resolveStep] at h
      rw [foldl_resolveStep_error] at h
      cases h
    | ok s0 =>
      obtain ⟨loc, known⟩ := s0
      cases known with
      | true =>
        have e1 : resolveStep root' (.ok (loc, true)) p
            = resolveStep root (.ok (loc, true)) p := by
          simp [resolveStep]
        rw [e1]
        exact ih _ st h
      | false =>
        cases hn : root.notDirAt loc with
        | some e =>
          have e0 : resolveStep root (.ok (loc, false)) p = .error e := by
            simp [resolveStep, hn]
          rw [e0, foldl_resolveStep_error] at h
          cases h
        | none =>
          have hn' := notDirAt_kept root root' hk loc hn
          have e1 : resolveStep root' (.ok (loc, false)) p
              = resolveStep root (.ok (loc, false)) p := by
            simp [resolveStep, hn, hn']
          rw [e1]
          exact ih _ st h

/-- A path that names a location names the same location in every state that
keeps the directories and the working directory. -/
theorem resolve_kept (fs fs' : FS)
    (hk : ∀ loc es, fs.root.lookup loc = some (.dir es) →
      ∃ es', fs'.root.lookup loc = some (.dir es'))
    (hc : fs'.cwd = fs.cwd) (q : String) (loc : List String)
    (h : resolve fs q = .ok loc) : resolve fs' q = .ok loc := by
  unfold resolve at h ⊢
  by_cases hq : q = ""
  · simp [hq] at h
  · simp only [hq, if_false] at h ⊢
    have hstart : startLoc fs' q = startLoc fs q := by
      unfold startLoc; rw [hc]
    rw [hstart]
    cases hf : (splitOnChar '/' q.data).foldl (resolveStep fs.root)
        (.ok (startLoc fs q, false)) with
    | error e => rw [hf] at h; simp at h
    | ok st =>
      rw [hf] at h
      rw [foldl_resolveStep_kept fs.root fs'.root hk _ _ st hf]
      exact h

/-- The object a path names is the object at the location it names. -/
theorem node_ok (fs : FS) (q : String) (n : Node) (h : fs.node q = .ok n) :
    ∃ loc, resolve fs q = .ok loc ∧ fs.root.lookup loc = some n := by
  unfold FS.node at h
  cases hr : resolve fs q with
  | error e => rw [hr] at h; simp at h
  | ok loc =>
    rw [hr] at h
    simp only [] at h
    cases hl : fs.root.lookup loc with
    | none => rw [hl] at h; simp at h
    | some m =>
      rw [hl] at h
      simp only [Except.ok.injEq] at h
      exact ⟨loc, rfl, by rw [hl, h]⟩

/-- The object at the location a path names is the object the path names. -/
theorem node_of_lookup (fs : FS) (q : String) (loc : List String) (n : Node)
    (hr : resolve fs q = .ok loc) (hl : fs.root.lookup loc = some n) :
    fs.node q = .ok n := by
  unfold FS.node
  rw [hr]
  simp only []
  rw [hl]

/-- A successful `os.Stat` of a regular file comes from a file object. -/
theorem Stat_file (fs : FS) (q : String) (fi : FileInfo)
    (hs : Stat fs q = .ok fi) (hreg : fi.isDir = false) :
    ∃ c, fs.node q = .ok (.file c fi.modTime) := by
  unfold Stat at hs
  cases hn : fs.node q with
  | error e => rw [hn] at hs; simp at hs
  | ok n =>
    rw [hn] at hs
    simp only [Except.ok.injEq] at hs
    subst hs
    cases n with
    | file c t => exact ⟨c, rfl⟩
    | dir es => simp [Node.info] at hreg

/-- The `os.Stat` of a path that names a file object. -/
theorem Stat_of_node_file (fs : FS) (q : String) (c : String) (t : Int)
    (hn : fs.node q = .ok (.file c t)) : Stat fs q = .ok ⟨false, t⟩ := by
  unfold Stat
  rw [hn]
  rfl

/-- The empty path cannot be stat'ed. -/
theorem Stat_empty (fs : FS) : Stat fs "" = .error .ENOENT := by
  simp [Stat, FS.node, resolve]

/-- What a successful `os.MkdirAll` did. -/
theorem MkdirAll_ok (fs fs1 : FS) (p : String) (h : MkdirAll fs p = .ok fs1) :
    ∃ loc r, lexicalLoc fs p = some loc ∧ fs.root.mkdirAll loc = .ok r ∧
      fs1 = { fs with root := r } := by
  unfold MkdirAll at h
  cases hr : lexicalLoc fs p with
  | none => rw [hr] at h; simp at h
  | some loc =>
    rw [hr] at h
    simp only [] at h
    cases hst : fs.root.notDirAt (startLoc fs p) with
    | some e => rw [hst] at h; simp at h
    | none =>
      rw [hst] at h
      simp only [] at h
      cases hmk : fs.root.mkdirAll loc with
      | error e => rw [hmk] at h; simp at h
      | ok r =>
        rw [hmk] at h
        simp only [Except.ok.injEq] at h
        exact ⟨loc, r, rfl, hmk, h.symm⟩

/-- After `os.MkdirAll` every path names the location it named before. -/
theorem MkdirAll_resolve (fs fs1 : FS) (p : String) (h : MkdirAll fs p = .ok fs1)
    (q : String) (loc : List String) (hq : resolve fs q = .ok loc) :
    resolve fs1 q = .ok loc := by
  obtain ⟨l, r, _, hmk, hfs⟩ := MkdirAll_ok fs fs1 p h
  apply resolve_kept fs fs1 _ (by rw [hfs]) q loc hq
  intro loc' es hl
  rw [hfs]
  exact mkdirAll_lookup_dir l fs.root r loc' es hmk hl

/-- The call `os.MkdirAll` leaves every regular file where and as it was. -/
theorem MkdirAll_node_file (fs fs1 : FS) (p q : String) (c : String) (t : Int)
    (hm : MkdirAll fs p = .ok fs1) (hq : fs.node q = .ok (.file c t)) :
    fs1.node q = .ok (.file c t) := by
  obtain ⟨lq, hrq, hlq⟩ := node_ok fs q _ hq
  obtain ⟨l, r, _, hmk, hfs⟩ := MkdirAll_ok fs fs1 p hm
  apply node_of_lookup fs1 q lq _ (MkdirAll_resolve fs fs1 p hm q lq hrq)
  rw [hfs]
  exact mkdirAll_lookup_file l fs.root r lq c t hmk hlq

/-- The call `os.MkdirAll` leaves every directory a directory. -/
theorem MkdirAll_node_dir (fs fs1 : FS) (p q : String) (es : List (String × Node))
    (hm : MkdirAll fs p = .ok fs1) (hq : fs.node q = .ok (.dir es)) :
    ∃ es', fs1.node q = .ok (.dir es') := by
  obtain ⟨lq, hrq, hlq⟩ := node_ok fs q _ hq
  obtain ⟨l, r, _, hmk, hfs⟩ := MkdirAll_ok fs fs1 p hm
  obtain ⟨es', h'⟩ := mkdirAll_lookup_dir l fs.root r lq es hmk hlq
  refine ⟨es', node_of_lookup fs1 q lq _ (MkdirAll_resolve fs fs1 p hm q lq hrq) ?_⟩
  rw [hfs]
  exact h'

/-- What a successful `writeFile` did. -/
theorem writeFile_ok (fs fs' : FS) (p : String) (new : Node)
    (h : writeFile fs p new = .ok fs') :
    ∃ loc r, resolve fs p = .ok loc ∧ (∀ es, fs.root.lookup loc ≠ some (.dir es)) ∧
      fs.root.insert loc new = .ok r ∧ fs' = { fs with root := r } := by
  unfold writeFile at h
  cases hr : resolve fs p with
  | error e => rw [hr] at h; simp at h
  | ok loc =>
    rw [hr] at h
    simp only [] at h
    cases hl : fs.root.lookup loc with
    | none =>
      rw [hl] at h
      simp only [] at h
      cases hi : fs.root.insert loc new with
      | error e => rw [hi] at h; simp at h
      | ok r =>
        rw [hi] at h
        simp only [Except.ok.injEq] at h
        exact ⟨loc, r, rfl, by simp [hl], hi, h.symm⟩
    | some m =>
      rw [hl] at h
      cases m with
      | dir es => simp at h
      | file c t =>
        simp only [] at h
        cases hi : fs.root.insert loc new with
        | error e => rw [hi] at h; simp at h
        | ok r =>
          rw [hi] at h
          simp only [Except.ok.injEq] at h
          exact ⟨loc, r, rfl, by simp [hl], hi, h.symm⟩

/-- Writing a regular file where there was no directory keeps every
directory a directory. -/
theorem insert_file_lookup_dir (p : List String) (n n' : Node) (c : String) (t : Int)
    (hi : n.insert p (.file c t) = .ok n') (hnd : ∀ es, n.lookup p ≠ some (.dir es))
    (q : List String) (es : List (String × Node)) (hl : n.lookup q = some (.dir es)) :
    ∃ es', n'.lookup q = some (.dir es') := by
  have hq : q ≠ p := by
    intro h
    rw [h] at hl
    exact hnd es hl
  have hinfo := insert_lookup_other p n n' c t q hi hnd hq
  rw [hl] at hinfo
  cases hl' : n'.lookup q with
  | none => rw [hl'] at hinfo; simp at hinfo
  | some m =>
    rw [hl'] at hinfo
    cases m with
    | dir es' => exact ⟨es', rfl⟩
    | file c1 t1 => simp [Node.info] at hinfo

/-- After a successful `writeFile` of a regular file every path names the
location it named before. -/
theorem writeFile_resolve (fs fs' : FS) (p : String) (c : String) (t : Int)
    (h : writeFile fs p (.file c t) = .ok fs') (q : String) (loc : List String)
    (hq : resolve fs q = .ok loc) : resolve fs' q = .ok loc := by
  obtain ⟨lp, r, _, hnd, hi, hfs⟩ := writeFile_ok fs fs' p _ h
  apply resolve_kept fs fs' _ (by rw [hfs]) q loc hq
  intro loc' es hl
  rw [hfs]
  exact insert_file_lookup_dir lp fs.root r c t hi hnd loc' es hl

/-- After a successful `writeFile` the path names the file written. -/
theorem writeFile_node_self (fs fs' : FS) (p : String) (c : String) (t : Int)
    (h : writeFile fs p (.file c t) = .ok fs') : fs'.node p = .ok (.file c t) := by
  obtain ⟨loc, r, hr, _, hi, hfs⟩ := writeFile_ok fs fs' p _ h
  apply node_of_lookup fs' p loc _ (writeFile_resolve fs fs' p c t h p loc hr)
  rw [hfs]
  exact insert_lookup_self loc fs.root r _ hi

/-- The result of `os.Stat` in terms of the location a path names. -/
theorem Stat_eq (fs : FS) (q : String) (loc : List String) (hr : resolve fs q = .ok loc) :
    Stat fs q =
      (match (fs.root.lookup loc).map Node.info with
       | none => .error .ENOENT
       | some i => .ok i) := by
  unfold Stat FS.node
  rw [hr]
  simp only []
  cases fs.root.lookup loc with
  | none => rfl
  | some n => rfl

/-- A successful `writeFile` of a regular file changes the `os.Stat` of no
path that names another location. -/
theorem writeFile_Stat_other (fs fs' : FS) (p q : String) (c : String) (t : Int)
    (h : writeFile fs p (.file c t) = .ok fs') (lp lq : List String)
    (hp : resolve fs p = .ok lp) (hq : resolve fs q = .ok lq) (hne : lq ≠ lp) :
    Stat fs' q = Stat fs q := by
  obtain ⟨loc, r, hr, hnd, hi, hfs⟩ := writeFile_ok fs fs' p _ h
  rw [hp] at hr
  simp only [Except.ok.injEq] at hr
  subst hr
  rw [Stat_eq fs' q lq (writeFile_resolve fs fs' p c t h q lq hq), Stat_eq fs q lq hq]
  have hinfo := insert_lookup_other lp fs.root r c t lq hi hnd hne
  rw [hfs]
  simp only []
  rw [hinfo]

/-! ### Copying one file -/

/-- C4: when `copyFile(file, A, B)` returns without error, the source was a
regular file and afterwards both `A`'s and `B`'s copy are regular files with
the modification time the source had, so that `mostRecentlyModified` returns
the no-decision result `("", "", true)` for every value of `flagForcePath`. -/
theorem copyFile_preserves_modTime (fs fs' : FS) (file A B : String)
    (h : copyFile fs file A B = (fs', none)) :
    ∃ t : Int,
      Stat fs (Join A file) = .ok ⟨false, t⟩ ∧
      Stat fs' (Join A file) = .ok ⟨false, t⟩ ∧
      Stat fs' (Join B file) = .ok ⟨false, t⟩ ∧
      ∀ flagForcePath : Int,
        mostRecentlyModified fs' flagForcePath file A B = ("", "", true) := by
  unfold copyFile at h
  cases h1 : fs.node (Join A file) with
  | error e => rw [h1] at h; simp at h
  | ok srcNode =>
    rw [h1] at h
    simp only [] at h
    cases h2 : Create fs (Join B file) with
    | error e => rw [h2] at h; simp at h
    | ok fs1 =>
      rw [h2] at h
      simp only [] at h
      cases h3 : fs1.node (Join A file) with
      | error e => rw [h3] at h; simp at h
      | ok n1 =>
        rw [h3] at h
        cases n1 with
        | dir es => simp at h
        | file content t1 =>
          simp only [] at h
          cases h4 : writeFile fs1 (Join B file) (.file content fs1.now) with
          | error e => rw [h4] at h; simp at h
          | ok fs2 =>
            rw [h4] at h
            simp only [] at h
            cases h5 : Chtimes fs2 (Join B file) srcNode.info.modTime with
            | error e => rw [h5] at h; simp at h
            | ok fs3 =>
              rw [h5] at h
              simp only [Prod.mk.injEq, and_true] at h
              subst h
              -- the destination after the copy
              have hd2 : fs2.node (Join B file) = .ok (.file content fs1.now) :=
                writeFile_node_self fs1 fs2 _ _ _ h4
              unfold Chtimes at h5
              rw [hd2] at h5
              simp only [] at h5
              have hd3 : fs3.node (Join B file)
                  = .ok (.file content srcNode.info.modTime) :=
                writeFile_node_self fs2 fs3 _ _ _ h5
              have hB : Stat fs3 (Join B file) = .ok ⟨false, srcNode.info.modTime⟩ :=
                Stat_of_node_file fs3 _ _ _ hd3
              -- both paths name the same locations throughout
              unfold Create at h2
              obtain ⟨ls, hrs, hls⟩ := node_ok fs _ _ h1
              obtain ⟨ld, r, hrd, hnd, _, _⟩ := writeFile_ok fs fs1 _ _ h2
              have hrs1 := writeFile_resolve fs fs1 _ _ _ h2 _ ls hrs
              have hrd1 := writeFile_resolve fs fs1 _ _ _ h2 _ ld hrd
              have hrs2 := writeFile_resolve fs1 fs2 _ _ _ h4 _ ls hrs1
              have hrd2 := writeFile_resolve fs1 fs2 _ _ _ h4 _ ld hrd1
              have hrs3 := writeFile_resolve fs2 fs3 _ _ _ h5 _ ls hrs2
              have hrd3 := writeFile_resolve fs2 fs3 _ _ _ h5 _ ld hrd2
              have hA0 : Stat fs (Join A file) = .ok srcNode.info := by
                unfold Stat; rw [h1]
              -- the source was a regular file, and it still is
              have hsrc : srcNode.info = ⟨false, srcNode.info.modTime⟩ ∧
                  Stat fs3 (Join A file) = .ok ⟨false, srcNode.info.modTime⟩ := by
                by_cases hsame : ls = ld
                · subst hsame
                  constructor
                  · cases srcNode with
                    | file c0 t0 => rfl
                    | dir es => exact absurd hls (hnd es)
                  · obtain ⟨l3, hr3, hl3⟩ := node_ok fs3 _ _ hd3
                    rw [hrd3] at hr3
                    simp only [Except.ok.injEq] at hr3
                    subst hr3
                    exact Stat_of_node_file fs3 _ _ _ (node_of_lookup fs3 _ ls _ hrs3 hl3)
                · have e1 : Stat fs1 (Join A file) = Stat fs (Join A file) :=
                    writeFile_Stat_other fs fs1 _ _ _ _ h2 ld ls hrd hrs hsame
                  have e2 : Stat fs2 (Join A file) = Stat fs1 (Join A file) :=
                    writeFile_Stat_other fs1 fs2 _ _ _ _ h4 ld ls hrd1 hrs1 hsame
                  have e3 : Stat fs3 (Join A file) = Stat fs2 (Join A file) :=
                    writeFile_Stat_other fs2 fs3 _ _ _ _ h5 ld ls hrd2 hrs2 hsame
                  have hA1 : Stat fs1 (Join A file) = .ok ⟨false, t1⟩ :=
                    Stat_of_node_file fs1 _ _ _ h3
                  have hinfo : srcNode.info = ⟨false, t1⟩ := by
                    rw [e1, hA0] at hA1
                    simpa using hA1
                  constructor
                  · rw [hinfo]
                  · rw [e3, e2, e1, hA0, hinfo]
              obtain ⟨hinfo, hA⟩ := hsrc
              refine ⟨srcNode.info.modTime, ?_, hA, hB, ?_⟩
              · rw [hA0]
                exact congrArg Except.ok hinfo
              · intro flagForcePath
                simp [mostRecentlyModified, hA, hB]

/-- Witness for C4: copying `f` from `a` to `b` in `twoRoots` succeeds, and
afterwards the resolver reports no decision, also under an override. -/
theorem copyFile_preserves_modTime_witness :
    mostRecentlyModified (copyFile twoRoots "f" "a" "b").1 2 "f" "a" "b"
      = ("", "", true) := by
  have hok : copyFile twoRoots "f" "a" "b" = ((copyFile twoRoots "f" "a" "b").1, none) :=
    Prod.ext rfl (by decide)
  obtain ⟨_, _, _, _, h⟩ :=
    copyFile_preserves_modTime twoRoots (copyFile twoRoots "f" "a" "b").1 "f" "a" "b" hok
  exact h 2

/-! ### Copying a list of paths -/

/-- C5 fails on the code: `copyAll` creates only the parent directory of each
path, so a directory with no entries below it is never created.  Copying the
listing of `s` into the empty `d` returns without error and leaves `d` without
the directory `e`. -/
theorem copyAll_misses_empty_directory :
    stringSliceFromPathWalk emptyDirFS "s" = (["e", "file1"], none) ∧
    stringSliceFromPathWalk emptyDirFS "d" = ([], none) ∧
    (copyAll 0 "s" "d" emptyDirFS (stringSliceFromPathWalk emptyDirFS "s").1).2 = none ∧
    stringSliceFromPathWalk
        (copyAll 0 "s" "d" emptyDirFS (stringSliceFromPathWalk emptyDirFS "s").1).1 "d" =
      (["file1"], none) ∧
    Stat (copyAll 0 "s" "d" emptyDirFS (stringSliceFromPathWalk emptyDirFS "s").1).1
        (Join "d" "e") = .error .ENOENT := by
  decide

/-- C9, as the claim states it, fails: when the copy of `a` fails (the
destination is a directory) or the directory for `x/y` cannot be made (`x` is
a file in the destination), `copyAll` returns the error at once and the later
path `b` is not copied, although `b` alone is copied without error. -/
theorem copyAll_aborts_on_copy_error :
    (copyFile clashFS "a" "s" "d").2 = some .EISDIR ∧
    (copyAll 0 "s" "d" clashFS ["a", "b"]).2 = some .EISDIR ∧
    Stat (copyAll 0 "s" "d" clashFS ["a", "b"]).1 "d/b" = .error .ENOENT ∧
    (copyAll 0 "s" "d" clashFS ["x/y", "b"]).2 = some .ENOTDIR ∧
    Stat (copyAll 0 "s" "d" clashFS ["x/y", "b"]).1 "d/b" = .error .ENOENT ∧
    (copyAll 0 "s" "d" clashFS ["b"]).2 = none ∧
    Stat (copyAll 0 "s" "d" clashFS ["b"]).1 "d/b" = .ok ⟨false, 1000000000⟩ := by
  decide

/-- One iteration of the loop of `copyAll`. -/
theorem copyAll_cons (flagForcePath : Int) (srcPath destPath : String) (fs : FS)
    (path : String) (rest : List String) :
    copyAll flagForcePath srcPath destPath fs (path :: rest) =
      (match Stat fs (Join srcPath path) with
       | .error _ => copyAll flagForcePath srcPath destPath fs rest
       | .ok fi =>
         match MkdirAll fs (Dir (Join destPath path)) with
         | .error e => (fs, some e)
         | .ok fs1 =>
           if fi.isDir then copyAll flagForcePath srcPath destPath fs1 rest
           else if !(mostRecentlyModified fs1 flagForcePath path srcPath destPath).2.2
                  || (mostRecentlyModified fs1 flagForcePath path srcPath destPath).1
                      = srcPath then
             match copyFile fs1 path srcPath destPath with
             | (fs2, some e) => (fs2, some e)
             | (fs2, none) => copyAll flagForcePath srcPath destPath fs2 rest
           else copyAll flagForcePath srcPath destPath fs1 rest) := rfl

/-- C9, amended: `copyAll` absorbs only a failing stat of the source path: it
then skips the path and goes on with the rest of the list.  When the
destination directory cannot be made, or when `copyFile` is called and fails,
`copyAll` stops at that path and returns the error, whatever paths follow. -/
theorem copyAll_error_handling (flagForcePath : Int) (srcPath destPath : String)
    (fs : FS) (path : String) (rest : List String) :
    ((∀ fi, Stat fs (Join srcPath path) ≠ .ok fi) →
      copyAll flagForcePath srcPath destPath fs (path :: rest) =
        copyAll flagForcePath srcPath destPath fs rest) ∧
    (∀ fi e, Stat fs (Join srcPath path) = .ok fi →
      MkdirAll fs (Dir (Join destPath path)) = .error e →
      copyAll flagForcePath srcPath destPath fs (path :: rest) = (fs, some e)) ∧
    (∀ fi fs1 fs2 e, Stat fs (Join srcPath path) = .ok fi → fi.isDir = false →
      MkdirAll fs (Dir (Join destPath path)) = .ok fs1 →
      ((mostRecentlyModified fs1 flagForcePath path srcPath destPath).2.2 = false ∨
        (mostRecentlyModified fs1 flagForcePath path srcPath destPath).1 = srcPath) →
      copyFile fs1 path srcPath destPath = (fs2, some e) →
      copyAll flagForcePath srcPath destPath fs (path :: rest) = (fs2, some e)) := by
  refine ⟨?_, ?_, ?_⟩
  · intro h
    rw [copyAll_cons]
    cases hs : Stat fs (Join srcPath path) with
    | error e => rfl
    | ok fi => exact absurd hs (h fi)
  · intro fi e hs hm
    rw [copyAll_cons, hs]
    simp only [hm]
  · intro fi fs1 fs2 e hs hreg hm hcond hcopy
    rw [copyAll_cons, hs]
    simp only [hm, hreg, hcopy]
    have hc : (!(mostRecentlyModified fs1 flagForcePath path srcPath destPath).2.2
        || decide ((mostRecentlyModified fs1 flagForcePath path srcPath destPath).1
            = srcPath)) = true := by
      rcases hcond with h | h
      · simp [h]
      · simp [h]
    simp [hc]

/-- Witness for C9, amended: in `clashFS` the source `gone` cannot be stat'ed
and is skipped, so that `b` is copied; the destination of `a` is a directory,
`copyFile` fails and `b`, which follows, is not looked at. -/
theorem copyAll_error_handling_witness :
    copyAll 0 "s" "d" clashFS ["gone", "b"] = copyAll 0 "s" "d" clashFS ["b"] ∧
    (copyAll 0 "s" "d" clashFS ["a", "b"]).2 = some .EISDIR :=
  ⟨(copyAll_error_handling 0 "s" "d" clashFS "gone" ["b"]).1
      (fun fi h => by
        have hs : Stat clashFS (Join "s" "gone") = .error .ENOENT := by decide
        rw [hs] at h
        cases h),
   by
    have hm : ∃ fs1, MkdirAll clashFS (Dir (Join "d" "a")) = .ok fs1 := by
      cases h : MkdirAll clashFS (Dir (Join "d" "a")) with
      | ok fs1 => exact ⟨fs1, rfl⟩
      | error e =>
        have : (match MkdirAll clashFS (Dir (Join "d" "a")) with
          | .ok _ => true | .error _ => false) = true := by decide
        rw [h] at this
        cases this
    obtain ⟨fs1, hm⟩ := hm
    have hstat : Stat clashFS (Join "s" "a") = .ok ⟨false, 1000000000⟩ := by decide
    have hmrm : (mostRecentlyModified fs1 0 "a" "s" "d").2.2 = false := by
      have : (match MkdirAll clashFS (Dir (Join "d" "a")) with
          | .ok f => (mostRecentlyModified f 0 "a" "s" "d").2.2
          | .error _ => false) = false := by decide
      rw [hm] at this
      exact this
    have hcopy : (copyFile fs1 "a" "s" "d").2 = some .EISDIR := by
      have : (match MkdirAll clashFS (Dir (Join "d" "a")) with
          | .ok f => (copyFile f "a" "s" "d").2
          | .error _ => none) = some .EISDIR := by decide
      rw [hm] at this
      exact this
    have h := (copyAll_error_handling 0 "s" "d" clashFS "a" ["b"]).2.2
      ⟨false, 1000000000⟩ fs1 (copyFile fs1 "a" "s" "d").1 .EISDIR hstat rfl hm
      (Or.inl hmrm) (by rw [← hcopy])
    rw [h]⟩

/-! ### The overwrite policy of `copyAll` -/

/-- A successful `os.Stat` of a directory comes from a directory object. -/
theorem Stat_dir (fs : FS) (q : String) (fi : FileInfo)
    (hs : Stat fs q = .ok fi) (hdir : fi.isDir = true) :
    ∃ es, fs.node q = .ok (.dir es) := by
  unfold Stat at hs
  cases hn : fs.node q with
  | error e => rw [hn] at hs; simp at hs
  | ok n =>
    rw [hn] at hs
    simp only [Except.ok.injEq] at hs
    subst hs
    cases n with
    | file c t => simp [Node.info] at hdir
    | dir es => exact ⟨es, rfl⟩

/-- The call `os.Create` fails on a directory. -/
theorem Create_dir (fs : FS) (q : String) (es : List (String × Node))
    (hn : fs.node q = .ok (.dir es)) : Create fs q = .error .EISDIR := by
  obtain ⟨loc, hr, hl⟩ := node_ok fs q _ hn
  unfold Create writeFile
  rw [hr]
  simp only []
  rw [hl]

/-- Remark on the empty source string, which is no source root (it cannot be
stat'ed, and `main` passes the result of `filepath.Clean`, never empty): the
resolver reports equal times by an empty source string, `copyAll` compares
that string with `srcPath`, and for `srcPath = ""` finds them equal and
overwrites the destination file although its time is not older. -/
theorem copyAll_empty_root_overwrites :
    Stat cwdRootFS "" = .error .ENOENT ∧
    Stat cwdRootFS (Join "" "f") = .ok ⟨false, 5000000000⟩ ∧
    Stat cwdRootFS (Join "d" "f") = .ok ⟨false, 5000000000⟩ ∧
    readFile cwdRootFS (Join "d" "f") = some "theirs" ∧
    mostRecentlyModified cwdRootFS 0 "f" "" "d" = ("", "", true) ∧
    (copyAll 0 "" "d" cwdRootFS ["f"]).2 = none ∧
    readFile (copyAll 0 "" "d" cwdRootFS ["f"]).1 (Join "d" "f") = some "ours" ∧
    readFile (copyAll 0 (Clean "") "d" cwdRootFS ["f"]).1 (Join "d" "f")
      = some "theirs" := by
  decide

/-- C3: with no override (`flagForcePath = 0`), for a source root (a path
that can be stat'ed) and a regular file under it, `copyAll` performs the byte
copy only if the destination copy is absent or the source's copy has the
strictly later modification time in seconds.  When the destination holds a
regular file whose time is equal to or later than the source's, the iteration
for the path does not call `copyFile`: it makes the (existing) destination
directory, leaves the destination file as it is and goes on with the next
path.  When the destination is a directory, `copyFile` fails in `os.Create`
before any byte is written.  When the directory cannot be made, the file
system is unchanged. -/
theorem copyAll_overwrite_policy (srcPath destPath path : String) (rest : List String)
    (fs : FS) (fr fi fd : FileInfo)
    (hroot : Stat fs srcPath = .ok fr)
    (hs : Stat fs (Join srcPath path) = .ok fi) (hsreg : fi.isDir = false)
    (hd : Stat fs (Join destPath path) = .ok fd)
    (hle : fd.isDir = false → fi.Unix ≤ fd.Unix) :
    (∀ e, MkdirAll fs (Dir (Join destPath path)) = .error e →
      copyAll 0 srcPath destPath fs (path :: rest) = (fs, some e)) ∧
    (fd.isDir = false → ∀ fs1, MkdirAll fs (Dir (Join destPath path)) = .ok fs1 →
      copyAll 0 srcPath destPath fs (path :: rest) = copyAll 0 srcPath destPath fs1 rest ∧
      fs1.node (Join destPath path) = fs.node (Join destPath path)) ∧
    (fd.isDir = true → ∀ fs1, MkdirAll fs (Dir (Join destPath path)) = .ok fs1 →
      copyAll 0 srcPath destPath fs (path :: rest) = (fs1, some .EISDIR)) := by
  have hne : srcPath ≠ "" := by
    intro h
    rw [h, Stat_empty] at hroot
    cases hroot
  obtain ⟨cs, hns⟩ := Stat_file fs _ fi hs hsreg
  have hfi : (⟨false, fi.modTime⟩ : FileInfo) = fi := by
    cases fi; simp at hsreg; simp [hsreg]
  refine ⟨?_, ?_, ?_⟩
  · intro e hm
    rw [copyAll_cons, hs]
    simp only [hm]
  · intro hdreg fs1 hm
    have hle := hle hdreg
    obtain ⟨cd, hnd⟩ := Stat_file fs _ fd hd hdreg
    have hns1 := MkdirAll_node_file fs fs1 _ _ cs fi.modTime hm hns
    have hnd1 := MkdirAll_node_file fs fs1 _ _ cd fd.modTime hm hnd
    have hfd : (⟨false, fd.modTime⟩ : FileInfo) = fd := by
      cases fd; simp at hdreg; simp [hdreg]
    have hs1 : Stat fs1 (Join srcPath path) = .ok fi := by
      rw [Stat_of_node_file fs1 _ cs fi.modTime hns1, hfi]
    have hd1 : Stat fs1 (Join destPath path) = .ok fd := by
      rw [Stat_of_node_file fs1 _ cd fd.modTime hnd1, hfd]
    refine ⟨?_, by rw [hnd1, hnd]⟩
    rw [copyAll_cons, hs]
    simp only [hm, hsreg]
    have hskip : (!(mostRecentlyModified fs1 0 path srcPath destPath).2.2
        || decide ((mostRecentlyModified fs1 0 path srcPath destPath).1 = srcPath))
          = false := by
      by_cases heq : fi.Unix = fd.Unix
      · have hm0 : mostRecentlyModified fs1 0 path srcPath destPath = ("", "", true) := by
          simp [mostRecentlyModified, hs1, hd1, hsreg, hdreg, heq]
        rw [hm0]
        simp [Ne.symm hne]
      · have hlt : fi.Unix < fd.Unix := lt_of_le_of_ne hle heq
        have hngt : ¬ fd.Unix < fi.Unix := not_lt.mpr hle
        have hm0 : mostRecentlyModified fs1 0 path srcPath destPath
            = (destPath, srcPath, true) := by
          simp [mostRecentlyModified, hs1, hd1, hsreg, hdreg, heq, hlt, hngt]
        rw [hm0]
        have hne' : destPath ≠ srcPath := by
          intro h
          rw [h, hs] at hd
          simp only [Except.ok.injEq] at hd
          exact heq (by rw [hd])
        simp [hne']
    rw [hskip]
    simp
  · intro hddir fs1 hm
    obtain ⟨es, hnd⟩ := Stat_dir fs _ fd hd hddir
    obtain ⟨es', hnd1⟩ := MkdirAll_node_dir fs fs1 _ _ es hm hnd
    have hns1 := MkdirAll_node_file fs fs1 _ _ cs fi.modTime hm hns
    have hs1 : Stat fs1 (Join srcPath path) = .ok fi := by
      rw [Stat_of_node_file fs1 _ cs fi.modTime hns1, hfi]
    have hd1 : Stat fs1 (Join destPath path) = .ok ⟨true, 0⟩ := by
      unfold Stat; rw [hnd1]; rfl
    have hm0 : mostRecentlyModified fs1 0 path srcPath destPath = ("", "", false) := by
      simp [mostRecentlyModified, hs1, hd1, hsreg]
    have hcopy : copyFile fs1 path srcPath destPath = (fs1, some .EISDIR) := by
      unfold copyFile
      rw [hns1]
      simp only []
      rw [Create_dir fs1 _ es' hnd1]
    rw [copyAll_cons, hs]
    simp only [hm, hsreg, hm0, hcopy]
    simp

/-- Witness for C3: in `twoRoots`, file `h` has the same time in seconds
under `a` and `b`, and copying `h` from the root `a` to `b` leaves the content
under `b` as it was. -/
theorem copyAll_overwrite_policy_witness :
    (copyAll 0 "a" "b" twoRoots ["h"]).2 = none ∧
    readFile (copyAll 0 "a" "b" twoRoots ["h"]).1 (Join "b" "h") = some "right" := by
  have hm : ∃ fs1, MkdirAll twoRoots (Dir (Join "b" "h")) = .ok fs1 := by
    cases h : MkdirAll twoRoots (Dir (Join "b" "h")) with
    | ok fs1 => exact ⟨fs1, rfl⟩
    | error e =>
      have : (match MkdirAll twoRoots (Dir (Join "b" "h")) with
        | .ok _ => true | .error _ => false) = true := by decide
      rw [h] at this
      cases this
  obtain ⟨fs1, hm⟩ := hm
  have h := (copyAll_overwrite_policy "a" "b" "h" [] twoRoots
      ⟨true, 0⟩ ⟨false, 3000000000⟩ ⟨false, 3999999999⟩
      (by decide) (by decide) rfl (by decide) (fun _ => by decide)).2.1 rfl fs1 hm
  rw [h.1]
  refine ⟨rfl, ?_⟩
  show readFile fs1 (Join "b" "h") = some "right"
  unfold readFile
  rw [h.2]
  decide

/-! ### Lists of characters -/

theorem dropWhile_append_of_ne_nil (p : Char → Bool) (l m : List Char)
    (h : l.dropWhile p ≠ []) : (l ++ m).dropWhile p = l.dropWhile p ++ m := by
  induction l with
  | nil => simp at h
  | cons a l ih =>
    by_cases ha : p a = true
    · simp only [List.cons_append, List.dropWhile_cons, ha, if_true] at h ⊢
      exact ih h
    · simp [List.dropWhile_cons, ha]

theorem dropWhile_append_of_eq_nil (p : Char → Bool) (l m : List Char)
    (h : l.dropWhile p = []) : (l ++ m).dropWhile p = m.dropWhile p := by
  induction l with
  | nil => rfl
  | cons a l ih =>
    by_cases ha : p a = true
    · simp only [List.cons_append, List.dropWhile_cons, ha, if_true] at h ⊢
      exact ih h
    · simp [List.dropWhile_cons, ha] at h

/-! ### Splitting and joining paths -/

/-- A split always has a first piece. -/
theorem splitOnChar_cons (sep : Char) (cs : List Char) :
    ∃ hd tl, splitOnChar sep cs = hd :: tl := by
  cases cs with
  | nil => exact ⟨[], [], rfl⟩
  | cons c cs =>
    simp only [splitOnChar]
    cases h : splitOnChar sep cs with
    | nil => exact ⟨[], [], rfl⟩
    | cons hd tl =>
      by_cases hc : c = sep
      · exact ⟨[], hd :: tl, by simp [hc]⟩
      · exact ⟨c :: hd, tl, by simp [hc]⟩

/-- The split of a separator followed by more. -/
theorem splitOnChar_sep_cons (sep : Char) (cs : List Char) :
    splitOnChar sep (sep :: cs) = [] :: splitOnChar sep cs := by
  obtain ⟨hd, tl, h⟩ := splitOnChar_cons sep cs
  simp [splitOnChar, h]

/-- The split of another character followed by more. -/
theorem splitOnChar_char_cons (sep c : Char) (cs hd : List Char) (tl : List (List Char))
    (hc : c ≠ sep) (h : splitOnChar sep cs = hd :: tl) :
    splitOnChar sep (c :: cs) = (c :: hd) :: tl := by
  simp [splitOnChar, h, hc]

/-- The pieces of a split do not contain the separator. -/
theorem splitOnChar_no_sep (sep : Char) :
    ∀ (cs : List Char) (p : List Char), p ∈ splitOnChar sep cs → sep ∉ p := by
  intro cs
  induction cs with
  | nil =>
    intro p hp
    simp [splitOnChar] at hp
    simp [hp]
  | cons c cs ih =>
    intro p hp
    obtain ⟨hd, tl, h⟩ := splitOnChar_cons sep cs
    by_cases hc : c = sep
    · rw [hc, splitOnChar_sep_cons] at hp
      rcases List.mem_cons.mp hp with h1 | h1
      · simp [h1]
      · exact ih p h1
    · rw [splitOnChar_char_cons sep c cs hd tl hc h] at hp
      rcases List.mem_cons.mp hp with h1 | h1
      · rw [h1]
        have hhd := ih hd (by rw [h]; exact List.mem_cons_self _ _)
        intro hm
        rcases List.mem_cons.mp hm with h2 | h2
        · exact hc h2.symm
        · exact hhd h2
      · exact ih p (by rw [h]; exact List.mem_cons_of_mem _ h1)

/-- What holds no separator is one piece. -/
theorem splitOnChar_of_not_mem (sep : Char) :
    ∀ (x : List Char), sep ∉ x → splitOnChar sep x = [x] := by
  intro x
  induction x with
  | nil => intro _; rfl
  | cons a x ih =>
    intro h
    have ha : a ≠ sep := fun e => h (by rw [e]; exact List.mem_cons_self _ _)
    have hx : sep ∉ x := fun e => h (List.mem_cons_of_mem _ e)
    exact splitOnChar_char_cons sep a x x [] ha (ih hx)

/-- A piece, a separator and more split into the piece and the split of the
rest. -/
theorem splitOnChar_append_cons (sep : Char) (y : List Char) :
    ∀ (x : List Char), sep ∉ x →
      splitOnChar sep (x ++ sep :: y) = x :: splitOnChar sep y := by
  intro x
  induction x with
  | nil => intro _; exact splitOnChar_sep_cons sep y
  | cons a x ih =>
    intro h
    have ha : a ≠ sep := fun e => h (by rw [e]; exact List.mem_cons_self _ _)
    have hx : sep ∉ x := fun e => h (List.mem_cons_of_mem _ e)
    rw [List.cons_append]
    exact splitOnChar_char_cons sep a _ x _ ha (ih hx)

/-- Splitting what was joined gives the pieces back. -/
theorem splitOnChar_joinWith (sep : Char) :
    ∀ (comps : List (List Char)), comps ≠ [] → (∀ p ∈ comps, sep ∉ p) →
      splitOnChar sep (joinWith sep comps) = comps := by
  intro comps
  induction comps with
  | nil => intro h; exact absurd rfl h
  | cons x rest ih =>
    intro _ hfree
    cases rest with
    | nil =>
      simp only [joinWith]
      exact splitOnChar_of_not_mem sep x (hfree x (List.mem_cons_self _ _))
    | cons y rest' =>
      simp only [joinWith]
      rw [splitOnChar_append_cons sep _ x (hfree x (List.mem_cons_self _ _))]
      rw [ih (by simp) (fun p hp => hfree p (List.mem_cons_of_mem _ hp))]

/-- What holds a separator splits into two pieces at least. -/
theorem splitOnChar_two_of_mem (sep : Char) :
    ∀ (cs : List Char), sep ∈ cs → ∃ hd x tl, splitOnChar sep cs = hd :: x :: tl := by
  intro cs
  induction cs with
  | nil => intro h; simp at h
  | cons c cs ih =>
    intro h
    obtain ⟨hd, tl, hs⟩ := splitOnChar_cons sep cs
    by_cases hc : c = sep
    · rw [hc, splitOnChar_sep_cons, hs]
      exact ⟨[], hd, tl, rfl⟩
    · have hmem : sep ∈ cs := by
        rcases List.mem_cons.mp h with h1 | h1
        · exact absurd h1.symm hc
        · exact h1
      obtain ⟨hd', x, tl', hs'⟩ := ih hmem
      rw [splitOnChar_char_cons sep c cs hd' (x :: tl') hc hs']
      exact ⟨c :: hd', x, tl', rfl⟩

/-- The part of a path up to its last separator, character by character. -/
theorem upToLastSlash_cons (c : Char) (cs : List Char) :
    upToLastSlash (c :: cs) =
      if c = '/' ∨ '/' ∈ cs then c :: upToLastSlash cs else [] := by
  unfold upToLastSlash
  rw [List.reverse_cons]
  by_cases hmem : '/' ∈ cs
  · have hne : cs.reverse.dropWhile (fun c => c != '/') ≠ [] := by
      intro h
      rw [List.dropWhile_eq_nil_iff] at h
      have := h '/' (List.mem_reverse.mpr hmem)
      simp at this
    rw [dropWhile_append_of_ne_nil _ _ _ hne]
    simp [hmem]
  · have heq : cs.reverse.dropWhile (fun c => c != '/') = [] := by
      rw [List.dropWhile_eq_nil_iff]
      intro x hx
      have hx' : x ∈ cs := List.mem_reverse.mp hx
      have : x ≠ '/' := fun e => hmem (e ▸ hx')
      simp [this]
    rw [dropWhile_append_of_eq_nil _ _ _ heq, heq]
    by_cases hc : c = '/'
    · simp [hc]
    · simp [hc, hmem, List.dropWhile_cons]

/-- The part of a path up to its last separator has the pieces of the path
but the last, and an empty piece. -/
theorem splitOnChar_upToLastSlash :
    ∀ (cs : List Char),
      splitOnChar '/' (upToLastSlash cs) = (splitOnChar '/' cs).dropLast ++ [[]] := by
  intro cs
  induction cs with
  | nil => rfl
  | cons c cs ih =>
    rw [upToLastSlash_cons]
    obtain ⟨hd, tl, hs⟩ := splitOnChar_cons '/' cs
    by_cases hc : c = '/'
    · simp only [hc, true_or, if_true]
      rw [splitOnChar_sep_cons, splitOnChar_sep_cons, ih, hs]
      simp [List.dropLast]
    · by_cases hmem : '/' ∈ cs
      · simp only [hc, hmem, or_true, if_true]
        obtain ⟨hd', x, tl', hs'⟩ := splitOnChar_two_of_mem '/' cs hmem
        have hup : splitOnChar '/' (upToLastSlash cs) = hd' :: ((x :: tl').dropLast ++ [[]]) := by
          rw [ih, hs']
          simp [List.dropLast]
        rw [splitOnChar_char_cons '/' c _ hd' _ hc hup,
          splitOnChar_char_cons '/' c cs hd' (x :: tl') hc hs']
        simp [List.dropLast]
      · simp only [hc, hmem, or_false, if_false]
        have hfree : '/' ∉ c :: cs := by
          intro h
          rcases List.mem_cons.mp h with h1 | h1
          · exact hc h1.symm
          · exact hmem h1
        rw [splitOnChar_of_not_mem '/' (c :: cs) hfree]
        rfl

/-- The part of a path up to its last separator is rooted exactly if the
path is. -/
theorem head_upToLastSlash (cs : List Char) :
    ((upToLastSlash cs).head? = some '/') ↔ (cs.head? = some '/') := by
  cases cs with
  | nil => simp [upToLastSlash]
  | cons c cs =>
    rw [upToLastSlash_cons]
    by_cases hc : c = '/'
    · simp [hc]
    · by_cases hmem : '/' ∈ cs
      · simp [hc, hmem]
      · simp [hc, hmem]

/-! ### The manifest loader -/

/-- A separator at the end adds one empty piece. -/
theorem splitOnChar_append_sep (sep : Char) (cs : List Char) :
    splitOnChar sep (cs ++ [sep]) = splitOnChar sep cs ++ [[]] := by
  induction cs with
  | nil => simp [splitOnChar]
  | cons c cs ih =>
    obtain ⟨hd, tl, h⟩ := splitOnChar_cons sep cs
    simp only [List.cons_append, splitOnChar, List.append_eq]
    rw [ih, h]
    by_cases hc : c = sep <;> simp [hc]

/-- The newline that ends a line is trimmed away with the other white space. -/
theorem TrimSpace_append_newline (l : List Char) :
    TrimSpace ⟨l ++ ['\n']⟩ = TrimSpace ⟨l⟩ := by
  have hnl : isSpace '\n' = true := by decide
  unfold TrimSpace
  simp only
  by_cases h : l.dropWhile isSpace = []
  · rw [dropWhile_append_of_eq_nil isSpace l _ h, h]
    simp [List.dropWhile_cons, hnl]
  · rw [dropWhile_append_of_ne_nil isSpace l _ h]
    simp [List.dropWhile_cons, hnl]

/-- The loop of `stringSliceFromFile` on input that ends in a newline: the
lines found are the pieces between the newlines, the first one completed by
what was pending, each trimmed and kept unless empty. -/
theorem readLines_terminated :
    ∀ (cs pending : List Char) (lines : List String) (hd : List Char)
      (tl : List (List Char)),
      splitOnChar '\n' cs = hd :: tl →
      readLines pending lines (cs ++ ['\n']) =
        lines ++ keepLine (pending ++ hd) ++ (tl.map keepLine).flatten := by
  intro cs
  induction cs with
  | nil =>
    intro pending lines hd tl h
    simp only [splitOnChar, List.cons.injEq] at h
    obtain ⟨h1, h2⟩ := h
    subst h1 h2
    simp only [List.nil_append, readLines, if_true, TrimSpace_append_newline,
      List.append_nil, List.map_nil, List.flatten_nil, keepLine]
    by_cases hk : len (TrimSpace ⟨pending⟩) > 0 <;> simp [hk]
  | cons c cs ih =>
    intro pending lines hd tl h
    obtain ⟨hd', tl', h'⟩ := splitOnChar_cons '\n' cs
    simp only [splitOnChar, h'] at h
    by_cases hc : c = '\n'
    · simp only [hc, if_true, List.cons.injEq] at h
      obtain ⟨h1, h2⟩ := h
      subst h1 h2
      simp only [List.cons_append, readLines, hc, if_true, TrimSpace_append_newline,
        List.append_eq]
      rw [ih [] _ hd' tl' h']
      simp only [List.nil_append, List.append_nil, List.map_cons, List.flatten_cons,
        keepLine]
      by_cases hk : len (TrimSpace ⟨pending⟩) > 0 <;> simp [hk]
    · simp only [hc, if_false, List.cons.injEq] at h
      obtain ⟨h1, h2⟩ := h
      subst h1 h2
      simp only [List.cons_append, readLines, hc, if_false, List.append_eq]
      rw [ih (pending ++ [c]) lines hd' tl' h']
      simp

/-- The entries of the specification, line by line. -/
theorem filter_map_trim (ls : List (List Char)) :
    ((ls.map (fun l => TrimSpace ⟨l⟩)).filter (fun l => len l > 0)) =
      (ls.map keepLine).flatten := by
  induction ls with
  | nil => rfl
  | cons l ls ih =>
    simp only [List.map_cons, List.flatten_cons, keepLine, List.filter_cons, ih]
    by_cases hk : len (TrimSpace ⟨l⟩) > 0 <;> simp [hk]

/-- For a file whose content ends in a newline, `stringSliceFromFile` returns
without error exactly the entries of the specification: the claim of C7 holds
for these contents. -/
theorem stringSliceFromFile_terminated (fs : FS) (path : String) (body : List Char)
    (t : Int) (h : fs.node path = .ok (.file ⟨body ++ ['\n']⟩ t)) :
    stringSliceFromFile fs path = (manifestEntries ⟨body ++ ['\n']⟩, none) := by
  obtain ⟨hd, tl, hs⟩ := splitOnChar_cons '\n' body
  unfold stringSliceFromFile manifestEntries
  rw [h]
  simp only [filter_map_trim, splitOnChar_append_sep, hs]
  rw [readLines_terminated body [] [] hd tl hs]
  have hempty : keepLine [] = [] := by decide
  simp [hempty]

/-- The two cases of `TestStringSliceFromFile`. -/
theorem stringSliceFromFile_test_cases :
    stringSliceFromFile manifestFS "r/.ssync-a" = (["!", "hello", "world"], none) ∧
    stringSliceFromFile manifestFS "r/.ssync-b" = (["0"], none) := by
  decide

/-- C7 fails on the code: for the content `"hello\nworld"` the entries are
`hello` and `world`, but `stringSliceFromFile` returns only `hello`: the entry
after the last newline is dropped when the reader reports the end of the
file. -/
theorem stringSliceFromFile_drops_unterminated_entry :
    manifestEntries "hello\nworld" = ["hello", "world"] ∧
    stringSliceFromFile manifestFS "r/.ssync-c" = (["hello"], none) := by
  decide

/-! ### The path lister -/

/-- The case of `TestStringSliceFromPathWalk`, by the rooted name of the
directory. -/
theorem stringSliceFromPathWalk_test_case :
    stringSliceFromPathWalk listerFS "/r" =
      ([".ssync-test", "dir1", "dir1/dir2", "dir1/dir2/file3", "dir1/file2", "file1"],
       none) := by
  decide

/-- C8 fails on the code for the root `.`, which is what `filepath.Clean`
makes of `.`, `./` or the empty argument: `filepath.Walk` reports the entries
of `.` as `file1`, `dir1/file2`, ..., without the root in front, so removing the
first `.` and the first byte mangles them.  The same directory listed as `.`
has `ile1`, `ir1` and `sync-test` for `file1`, `dir1` and `.ssync-test`. -/
theorem stringSliceFromPathWalk_dot_root :
    Clean "." = "." ∧
    Stat listerFS "." = .ok ⟨true, 0⟩ ∧
    stringSliceFromPathWalk listerFS "." =
      (["ile1", "ir1", "ir1/dir2", "ir1/dir2/file3", "ir1/file2", "sync-test"],
       none) := by
  decide

/-! ### `filepath.Clean` keeps the location a path names -/

/-- A name steps down. -/
theorem lexStep_name (loc : List String) (c : List Char)
    (h1 : c ≠ []) (h2 : c ≠ ['.']) (h3 : c ≠ ['.', '.']) :
    lexStep loc c = loc ++ [⟨c⟩] := by
  simp [lexStep, h1, h2, h3]

/-- The elements `filepath.Clean` keeps are names or `..`, without a
separator, provided the elements it reads have none. -/
theorem cleanStep_good (rooted : Bool) (stack : List (List Char)) (p : List Char)
    (hg : ∀ c ∈ stack, c ≠ [] ∧ c ≠ ['.'] ∧ '/' ∉ c) (hp : '/' ∉ p) :
    ∀ c ∈ cleanStep rooted stack p, c ≠ [] ∧ c ≠ ['.'] ∧ '/' ∉ c := by
  unfold cleanStep
  by_cases h1 : p = [] ∨ p = ['.']
  · simp only [h1, if_true]
    exact hg
  · have hp1 : p ≠ [] := fun e => h1 (Or.inl e)
    have hp2 : p ≠ ['.'] := fun e => h1 (Or.inr e)
    simp only [h1, if_false]
    by_cases h2 : p = ['.', '.']
    · simp only [h2, if_true]
      cases stack with
      | nil =>
        cases rooted with
        | true => simp
        | false => simp
      | cons top rest =>
        simp only []
        by_cases h3 : top = ['.', '.']
        · simp only [h3, if_true]
          intro c hc
          rcases List.mem_cons.mp hc with e | e
          · rw [e]; simp
          · exact hg c (by rw [h3]; exact e)
        · simp only [h3, if_false]
          intro c hc
          exact hg c (List.mem_cons_of_mem _ hc)
    · simp only [h2, if_false]
      intro c hc
      rcases List.mem_cons.mp hc with e | e
      · rw [e]; exact ⟨hp1, hp2, hp⟩
      · exact hg c e

/-- The elements kept after any number of elements read. -/
theorem foldl_cleanStep_good (rooted : Bool) :
    ∀ (ps : List (List Char)) (stack : List (List Char)),
      (∀ c ∈ stack, c ≠ [] ∧ c ≠ ['.'] ∧ '/' ∉ c) → (∀ p ∈ ps, '/' ∉ p) →
      ∀ c ∈ ps.foldl (cleanStep rooted) stack, c ≠ [] ∧ c ≠ ['.'] ∧ '/' ∉ c := by
  intro ps
  induction ps with
  | nil => intro stack hg _; exact hg
  | cons p ps ih =>
    intro stack hg hp
    simp only [List.foldl_cons]
    exact ih _ (cleanStep_good rooted stack p hg (hp p (List.mem_cons_self _ _)))
      (fun q hq => hp q (List.mem_cons_of_mem _ hq))

/-- Reading one element changes the location named by the kept elements as
the element itself changes a location. -/
theorem lexStep_cleanStep (rooted : Bool) (start : List String)
    (hstart : rooted = true → start = []) (stack : List (List Char)) (p : List Char)
    (hg : ∀ c ∈ stack, c ≠ [] ∧ c ≠ ['.'] ∧ '/' ∉ c) :
    (cleanStep rooted stack p).reverse.foldl lexStep start =
      lexStep (stack.reverse.foldl lexStep start) p := by
  unfold cleanStep
  by_cases h1 : p = [] ∨ p = ['.']
  · simp only [h1, if_true]
    simp [lexStep, h1]
  · simp only [h1, if_false]
    by_cases h2 : p = ['.', '.']
    · simp only [h2, if_true]
      cases stack with
      | nil =>
        cases rooted with
        | true =>
          rw [hstart rfl]
          simp [lexStep]
        | false => simp
      | cons top rest =>
        simp only []
        by_cases h3 : top = ['.', '.']
        · simp only [h3, if_true]
          simp [List.foldl_append]
        · simp only [h3, if_false]
          obtain ⟨g1, g2, _⟩ := hg top (List.mem_cons_self _ _)
          simp only [List.reverse_cons, List.foldl_append, List.foldl_cons, List.foldl_nil]
          rw [lexStep_name _ top g1 g2 h3]
          simp [lexStep]
    · simp only [h2, if_false]
      simp [List.foldl_append]

/-- Reading any number of elements likewise. -/
theorem foldl_lexStep_cleanStep (rooted : Bool) (start : List String)
    (hstart : rooted = true → start = []) :
    ∀ (ps : List (List Char)) (stack : List (List Char)),
      (∀ c ∈ stack, c ≠ [] ∧ c ≠ ['.'] ∧ '/' ∉ c) → (∀ p ∈ ps, '/' ∉ p) →
      (ps.foldl (cleanStep rooted) stack).reverse.foldl lexStep start =
        ps.foldl lexStep (stack.reverse.foldl lexStep start) := by
  intro ps
  induction ps with
  | nil => intro stack _ _; rfl
  | cons p ps ih =>
    intro stack hg hp
    simp only [List.foldl_cons]
    rw [ih _ (cleanStep_good rooted stack p hg (hp p (List.mem_cons_self _ _)))
      (fun q hq => hp q (List.mem_cons_of_mem _ hq))]
    rw [lexStep_cleanStep rooted start hstart stack p hg]

/-- Joined elements begin as the first one does. -/
theorem joinWith_head (sep : Char) (c : List Char) (rest : List (List Char))
    (hc : c ≠ []) : (joinWith sep (c :: rest)).head? = c.head? := by
  cases c with
  | nil => exact absurd rfl hc
  | cons a c' =>
    cases rest with
    | nil => rfl
    | cons y rest' => rfl

/-- Elements that are not empty do not join to the empty string. -/
theorem joinWith_ne_nil (sep : Char) (c : List Char) (rest : List (List Char))
    (hc : c ≠ []) : joinWith sep (c :: rest) ≠ [] := by
  intro h
  have := joinWith_head sep c rest hc
  rw [h] at this
  cases c with
  | nil => exact hc rfl
  | cons a c' => simp at this

/-- The path `filepath.Clean` returns names, by its elements, the location
the path it was given names by its elements. -/
theorem lexicalLoc_Clean (fs : FS) (x : List Char) :
    lexicalLoc fs (Clean ⟨x⟩) =
      some ((splitOnChar '/' x).foldl lexStep (startLoc fs ⟨x⟩)) := by
  have hfree : ∀ p ∈ splitOnChar '/' x, '/' ∉ p := splitOnChar_no_sep '/' x
  by_cases hr : x.head? = some '/'
  · -- a rooted path
    have hgood := foldl_cleanStep_good true (splitOnChar '/' x) [] (by simp) hfree
    have hloc := foldl_lexStep_cleanStep true [] (fun _ => rfl) (splitOnChar '/' x) []
      (by simp) hfree
    simp only [List.reverse_nil, List.foldl_nil] at hloc
    have hstart : startLoc fs ⟨x⟩ = [] := by simp [startLoc, hr]
    rw [hstart, ← hloc]
    cases hc : ((splitOnChar '/' x).foldl (cleanStep true) []).reverse with
    | nil =>
      have hcl : Clean ⟨x⟩ = "/" := by
        simp [Clean, hr, hc, joinWith]
      rw [hcl]
      simp [lexicalLoc, startLoc, splitOnChar, lexStep]
    | cons c0 rest =>
      have hfree' : ∀ p ∈ c0 :: rest, '/' ∉ p := by
        intro p hp
        rw [← hc] at hp
        exact (hgood p (List.mem_reverse.mp hp)).2.2
      have hcl : Clean ⟨x⟩ = ⟨'/' :: joinWith '/' (c0 :: rest)⟩ := by
        simp [Clean, hr, hc]
      rw [hcl]
      unfold lexicalLoc
      have hne : (⟨'/' :: joinWith '/' (c0 :: rest)⟩ : String) ≠ "" := by
        intro h
        have := congrArg String.data h
        simp at this
      simp only [hne, if_false]
      have hst : startLoc fs ⟨'/' :: joinWith '/' (c0 :: rest)⟩ = [] := by
        simp [startLoc]
      rw [hst, splitOnChar_sep_cons, splitOnChar_joinWith '/' _ (by simp) hfree']
      simp [lexStep]
  · -- a path relative to the working directory
    have hrb : decide (x.head? = some '/') = false := by simp [hr]
    have hgood := foldl_cleanStep_good false (splitOnChar '/' x) [] (by simp) hfree
    have hloc := foldl_lexStep_cleanStep false fs.cwd (fun h => by cases h)
      (splitOnChar '/' x) [] (by simp) hfree
    simp only [List.reverse_nil, List.foldl_nil] at hloc
    have hstart : startLoc fs ⟨x⟩ = fs.cwd := by simp [startLoc, hr]
    rw [hstart, ← hloc]
    cases hc : ((splitOnChar '/' x).foldl (cleanStep false) []).reverse with
    | nil =>
      have hcl : Clean ⟨x⟩ = "." := by
        simp [Clean, hr, hc, joinWith]
      rw [hcl]
      simp [lexicalLoc, startLoc, splitOnChar, lexStep]
    | cons c0 rest =>
      have hg0 := hgood c0 (List.mem_reverse.mp (by rw [hc]; exact List.mem_cons_self _ _))
      have hfree' : ∀ p ∈ c0 :: rest, '/' ∉ p := by
        intro p hp
        rw [← hc] at hp
        exact (hgood p (List.mem_reverse.mp hp)).2.2
      have hbody := joinWith_ne_nil '/' c0 rest hg0.1
      have hcl : Clean ⟨x⟩ = ⟨joinWith '/' (c0 :: rest)⟩ := by
        simp [Clean, hr, hc, hbody]
      rw [hcl]
      unfold lexicalLoc
      have hne : (⟨joinWith '/' (c0 :: rest)⟩ : String) ≠ "" := by
        intro h
        have := congrArg String.data h
        exact hbody this
      simp only [hne, if_false]
      have hhead : (joinWith '/' (c0 :: rest)).head? ≠ some '/' := by
        rw [joinWith_head '/' c0 rest hg0.1]
        intro h
        cases c0 with
        | nil => simp at h
        | cons a c' =>
          simp at h
          exact hg0.2.2 (by rw [h]; exact List.mem_cons_self _ _)
      have hst : startLoc fs ⟨joinWith '/' (c0 :: rest)⟩ = fs.cwd := by
        simp [startLoc, hhead]
      rw [hst, splitOnChar_joinWith '/' _ (by simp) hfree']

/-- The location `filepath.Dir` of a path names by its elements: the one
named by the elements of the path but the last. -/
theorem lexicalLoc_Dir (fs : FS) (path : String) :
    lexicalLoc fs (Dir path) =
      some ((splitOnChar '/' path.data).dropLast.foldl lexStep (startLoc fs path)) := by
  unfold Dir
  rw [lexicalLoc_Clean, splitOnChar_upToLastSlash, List.foldl_append]
  have hstart : startLoc fs ⟨upToLastSlash path.data⟩ = startLoc fs path := by
    unfold startLoc
    by_cases h : path.data.head? = some '/'
    · simp [h, (head_upToLastSlash path.data).mpr h]
    · have h' : ¬ (upToLastSlash path.data).head? = some '/' :=
        fun e => h ((head_upToLastSlash path.data).mp e)
      simp [h, h']
  rw [hstart]
  simp [lexStep]

/-! ### The collision-avoiding rename -/

theorem incInt_of_small (k : Nat) (h : (k : Int) + 1 < 2 ^ 63) :
    incInt (k : Int) = ((k + 1 : Nat) : Int) := by
  unfold incInt
  push_cast
  omega

/-- One iteration of the search loop. -/
theorem renameSearch_succ (fs : FS) (dest : String) (fuel : Nat) (x : Int) :
    renameSearch fs dest (fuel + 1) x =
      (match Stat fs (sprintfSuffix dest (incInt x)) with
       | .error _ => some (sprintfSuffix dest (incInt x))
       | .ok _ => renameSearch fs dest fuel (incInt x)) := rfl

/-- The search started at counter `k` stops at the first free candidate `n`
above `k`, given fuel for the `n - k` iterations this takes. -/
theorem renameSearch_finds (fs : FS) (dest : String) (n : Nat)
    (hn : (n : Int) < 2 ^ 63) (hfree : occupied fs (sprintfSuffix dest n) = false) :
    ∀ (fuel k : Nat), k < n → n - k ≤ fuel →
      (∀ j : Nat, k < j → j < n → occupied fs (sprintfSuffix dest j) = true) →
      renameSearch fs dest fuel (k : Int) = some (sprintfSuffix dest n) := by
  intro fuel
  induction fuel with
  | zero => intro k hk hf _; omega
  | succ fuel ih =>
    intro k hk hf hocc
    have hinc : incInt (k : Int) = ((k + 1 : Nat) : Int) :=
      incInt_of_small k (by omega)
    rw [renameSearch_succ, hinc]
    by_cases hlast : k + 1 = n
    · rw [hlast]
      unfold occupied at hfree
      cases hs : Stat fs (sprintfSuffix dest (n : Int)) with
      | error e => simp only []
      | ok fi => rw [hs] at hfree; cases hfree
    · have hlt : k + 1 < n := by omega
      have ho := hocc (k + 1) (by omega) hlt
      unfold occupied at ho
      cases hs : Stat fs (sprintfSuffix dest ((k + 1 : Nat) : Int)) with
      | error e => rw [hs] at ho; cases ho
      | ok fi =>
        simp only []
        exact ih (k + 1) hlt (by omega) (fun j hj hjn => hocc j (by omega) hjn)

/-- Whatever the search returns could not be stat'ed. -/
theorem renameSearch_free (fs : FS) (dest : String) :
    ∀ (fuel : Nat) (x : Int) (p : String),
      renameSearch fs dest fuel x = some p → occupied fs p = false := by
  intro fuel
  induction fuel with
  | zero => intro x p h; cases h
  | succ fuel ih =>
    intro x p h
    rw [renameSearch_succ] at h
    cases hs : Stat fs (sprintfSuffix dest (incInt x)) with
    | error e =>
      rw [hs] at h
      simp only [Option.some.injEq] at h
      subst h
      unfold occupied
      rw [hs]
    | ok fi =>
      rw [hs] at h
      exact ih _ p h

/-- The path `RenameFolder` returns is the one its search settled on. -/
theorem RenameFolder_path (fuel : Nat) (fs : FS) (src dest : String) :
    (RenameFolder fuel fs src dest).map (fun r => r.2.1) =
      (match Stat fs dest with
       | .ok _ => renameSearch fs dest fuel 0
       | .error _ => some dest) := by
  unfold RenameFolder
  cases hfound : (match Stat fs dest with
       | .ok _ => renameSearch fs dest fuel 0
       | .error _ => some dest) with
  | none => rfl
  | some d =>
    simp only []
    cases MkdirAll fs (Dir d) with
    | error e => rfl
    | ok fs1 =>
      simp only []
      cases Rename fs1 src d with
      | error e => rfl
      | ok fs2 => rfl

/-! ### The walk of a path and the location it names by its elements -/

/-- One step of a successful walk, taken apart. -/
theorem resolveStep_ok (root : Node) (loc : List String) (known : Bool)
    (p : List Char) (st : List String × Bool)
    (h : resolveStep root (.ok (loc, known)) p = .ok st) :
    (known = true ∨ root.notDirAt loc = none) ∧ st.1 = lexStep loc p ∧
      st.2 = decide (p = [] ∨ p = ['.'] ∨ p = ['.', '.']) := by
  unfold resolveStep at h
  cases known with
  | true =>
    simp only [if_true, Except.ok.injEq] at h
    rw [← h]
    exact ⟨Or.inl rfl, rfl, rfl⟩
  | false =>
    cases hn : root.notDirAt loc with
    | some e => simp [hn] at h
    | none =>
      simp only [hn, Bool.false_eq_true, if_false, Except.ok.injEq] at h
      rw [← h]
      exact ⟨Or.inr rfl, rfl, rfl⟩

/-- A successful walk reaches the location the path names by its elements. -/
theorem foldl_resolveStep_loc (root : Node) :
    ∀ (ps : List (List Char)) (loc : List String) (known : Bool)
      (st : List String × Bool),
      ps.foldl (resolveStep root) (.ok (loc, known)) = .ok st →
      st.1 = ps.foldl lexStep loc := by
  intro ps
  induction ps with
  | nil =>
    intro loc known st h
    simp only [List.foldl_nil, Except.ok.injEq] at h
    rw [← h]
    rfl
  | cons p ps ih =>
    intro loc known st h
    simp only [List.foldl_cons] at h ⊢
    cases h1 : resolveStep root (.ok (loc, known)) p with
    | error e =>
      rw [h1, foldl_resolveStep_error] at h
      cases h
    | ok s1 =>
      rw [h1] at h
      obtain ⟨_, hloc, _⟩ := resolveStep_ok root loc known p s1 h1
      have := ih s1.1 s1.2 st h
      rw [this, hloc]

/-- A location a successful walk knows to be a directory is one. -/
theorem foldl_resolveStep_known (root : Node) :
    ∀ (ps : List (List Char)) (loc : List String) (known : Bool)
      (st : List String × Bool),
      (known = true → root.notDirAt loc = none) →
      ps.foldl (resolveStep root) (.ok (loc, known)) = .ok st →
      st.2 = true → root.notDirAt st.1 = none := by
  intro ps
  induction ps with
  | nil =>
    intro loc known st hinv h hk
    simp only [List.foldl_nil, Except.ok.injEq] at h
    rw [← h] at hk ⊢
    exact hinv hk
  | cons p ps ih =>
    intro loc known st hinv h hk
    simp only [List.foldl_cons] at h
    cases h1 : resolveStep root (.ok (loc, known)) p with
    | error e =>
      rw [h1, foldl_resolveStep_error] at h
      cases h
    | ok s1 =>
      rw [h1] at h
      obtain ⟨hver, hloc, hkn⟩ := resolveStep_ok root loc known p s1 h1
      have hdir : root.notDirAt loc = none := by
        rcases hver with hv | hv
        · exact hinv hv
        · exact hv
      apply ih s1.1 s1.2 st _ h hk
      intro hs1
      rw [hkn] at hs1
      simp only [decide_eq_true_eq] at hs1
      rw [hloc]
      rcases hs1 with e | e | e
      · simp [lexStep, e]; exact hdir
      · simp [lexStep, e]; exact hdir
      · simp only [lexStep, e]
        simp only [List.cons_ne_nil, false_or, if_true]
        have : ¬ (['.', '.'] = ['.']) := by decide
        simp only [this, if_false]
        exact notDirAt_dropLast root loc hdir

/-- A regular file that a path names after the directories of `filepath.Dir`
of the path were made was named by the path before: making the parent
directories of a path never makes the path name an existing file. -/
theorem MkdirAll_Dir_file (fs fs1 : FS) (path : String) (c : String) (t : Int)
    (hm : MkdirAll fs (Dir path) = .ok fs1) (hn : fs1.node path = .ok (.file c t)) :
    fs.node path = .ok (.file c t) := by
  obtain ⟨d, hr1, hl1⟩ := node_ok fs1 path _ hn
  obtain ⟨L, r, hL, hmk, hfs⟩ := MkdirAll_ok fs fs1 _ hm
  rw [lexicalLoc_Dir] at hL
  simp only [Option.some.injEq] at hL
  have hroot1 : fs1.root = r := by rw [hfs]
  have hcwd1 : fs1.cwd = fs.cwd := by rw [hfs]
  have hstart : startLoc fs1 path = startLoc fs path := by
    unfold startLoc; rw [hcwd1]
  -- the file was there before
  have hl0 : fs.root.lookup d = some (.file c t) :=
    mkdirAll_lookup_file_rev L fs.root r d c t hmk (by rw [← hroot1]; exact hl1)
  -- take the walk in the new state apart at the last element
  unfold resolve at hr1
  by_cases hp : path = ""
  · simp [hp] at hr1
  simp only [hp, if_false] at hr1
  obtain ⟨hd, tl, hsplit⟩ := splitOnChar_cons '/' path.data
  have hne : splitOnChar '/' path.data ≠ [] := by rw [hsplit]; simp
  have hlast := (List.dropLast_append_getLast hne).symm
  generalize hps : (splitOnChar '/' path.data).dropLast = ps at hL hlast
  generalize hF : (splitOnChar '/' path.data).getLast hne = F at hlast
  rw [hlast, List.foldl_append, hstart] at hr1
  simp only [List.foldl_cons, List.foldl_nil] at hr1
  cases hw : ps.foldl (resolveStep fs1.root) (.ok (startLoc fs path, false)) with
  | error e =>
    rw [hw] at hr1
    simp [resolveStep] at hr1
  | ok sP =>
    rw [hw] at hr1
    cases hstep : resolveStep fs1.root (.ok sP) F with
    | error e => rw [hstep] at hr1; simp at hr1
    | ok sd =>
      rw [hstep] at hr1
      obtain ⟨dl, dk⟩ := sd
      simp only [Except.ok.injEq] at hr1
      obtain ⟨P, kn⟩ := sP
      obtain ⟨hver, hloc, hkn⟩ := resolveStep_ok fs1.root P kn F (dl, dk) hstep
      simp only [] at hloc hkn
      have hPloc : P = ps.foldl lexStep (startLoc fs path) :=
        foldl_resolveStep_loc fs1.root ps _ false (P, kn) hw
      have hPL : P = L := by rw [hPloc, hL]
      have hPdir : fs1.root.notDirAt P = none := by
        rcases hver with hv | hv
        · exact foldl_resolveStep_known fs1.root ps _ false (P, kn)
            (fun h => by cases h) hw hv
        · exact hv
      -- the last element is a name: otherwise the path names a directory
      have hddir : ∀ l, fs1.root.notDirAt l = none → d ≠ l := by
        intro l hl e
        unfold Node.notDirAt at hl
        rw [← e, hl1] at hl
        simp at hl
      have hd : d = P ++ [⟨F⟩] := by
        rw [← hr1, hloc]
        unfold lexStep
        by_cases h1 : F = [] ∨ F = ['.']
        · exfalso
          apply hddir P hPdir
          rw [← hr1, hloc]
          simp [lexStep, h1]
        · by_cases h2 : F = ['.', '.']
          · exfalso
            apply hddir P.dropLast (notDirAt_dropLast _ _ hPdir)
            rw [← hr1, hloc]
            simp [lexStep, h1, h2]
          · simp [h1, h2]
      -- the parent directory was there before, so no directory was made
      rw [hd] at hl0
      obtain ⟨es, hes⟩ := lookup_prefix_dir fs.root P _ _ (by simp) hl0
      have hback : ∀ loc es', fs1.root.lookup loc = some (.dir es') →
          ∃ es'', fs.root.lookup loc = some (.dir es'') := by
        intro loc es' h
        rw [hroot1] at h
        exact mkdirAll_lookup_dir_rev L fs.root r loc es es' (by rw [← hPL]; exact hes) hmk h
      have hr0 : resolve fs path = .ok d := by
        apply resolve_kept fs1 fs hback hcwd1.symm path d
        unfold resolve
        simp only [hp, if_false]
        rw [hlast, List.foldl_append, hstart]
        simp only [List.foldl_cons, List.foldl_nil]
        rw [hw, hstep, hr1]
      rw [← hd] at hl0
      exact node_of_lookup fs path d _ hr0 hl0

/-! ### What `os.Rename` and `RenameFolder` keep -/

/-- The call `os.MkdirAll` keeps every object. -/
theorem MkdirAll_kept (fs fs1 : FS) (p : String) (h : MkdirAll fs p = .ok fs1)
    (q : List String) (m : Node) (hl : fs.root.lookup q = some m) :
    ∃ m', fs1.root.lookup q = some m' ∧ keptAs m m' = true := by
  obtain ⟨l, r, _, hmk, hfs⟩ := MkdirAll_ok fs fs1 p h
  rw [hfs]
  exact mkdirAll_kept l fs.root r q m hmk hl

/-- A successful `os.Rename` to a name that is not a regular file keeps every
object that is not the one renamed or inside it. -/
theorem Rename_kept (fs fs' : FS) (oldname newname : String)
    (h : Rename fs oldname newname = .ok fs') (s : List String)
    (hs : resolve fs oldname = .ok s)
    (hfree : ∀ c t, fs.node newname ≠ .ok (.file c t))
    (q : List String) (m : Node) (hout : isAncestorLoc s q = false)
    (hl : fs.root.lookup q = some m) :
    ∃ m', fs'.root.lookup q = some m' ∧ keptAs m m' = true := by
  unfold Rename at h
  rw [hs] at h
  simp only [] at h
  cases hn : fs.root.lookup s with
  | none => rw [hn] at h; simp at h
  | some n =>
    rw [hn] at h
    simp only [] at h
    cases hrd : resolve fs (if n.info.isDir then trimSlashes newname else newname) with
    | error e => rw [hrd] at h; simp at h
    | ok d =>
      rw [hrd] at h
      simp only [] at h
      by_cases hsd : s = d
      · simp only [hsd, if_true, Except.ok.injEq] at h
        rw [← h]
        exact ⟨m, hl, keptAs_refl m⟩
      · simp only [hsd, if_false] at h
        cases hanc : isAncestorLoc s d with
        | true => rw [hanc] at h; simp at h
        | false =>
          rw [hanc] at h
          simp only [Bool.false_eq_true, if_false] at h
          -- nothing is at the new name
          have hnone : fs.root.lookup d = none := by
            cases hd : fs.root.lookup d with
            | none => rfl
            | some x =>
              rw [hd] at h
              cases x with
              | dir es => simp at h
              | file c t =>
                cases n with
                | dir es => simp at h
                | file c0 t0 =>
                  exfalso
                  simp only [Node.info, Bool.false_eq_true, if_false] at hrd
                  exact hfree c t (node_of_lookup fs newname d _ hrd hd)
          rw [hnone] at h
          simp only [] at h
          cases hrm : fs.root.remove s with
          | error e => rw [hrm] at h; simp at h
          | ok r1 =>
            rw [hrm] at h
            simp only [] at h
            cases hin : r1.insert d n with
            | error e => rw [hin] at h; simp at h
            | ok r2 =>
              rw [hin] at h
              simp only [Except.ok.injEq] at h
              rw [← h]
              simp only []
              obtain ⟨m1, hl1, hk1⟩ := remove_kept s fs.root r1 q m hrm hout hl
              have houtd : isAncestorLoc d q = false := by
                cases ha : isAncestorLoc d q with
                | false => rfl
                | true =>
                  obtain ⟨x, hx⟩ := lookup_ancestor fs.root d q m ha hl
                  rw [hnone] at hx
                  cases hx
              obtain ⟨m2, hl2, hk2⟩ := insert_kept d r1 r2 n q m1 hin houtd hl1
              exact ⟨m2, hl2, keptAs_trans m m1 m2 hk1 hk2⟩

/-- The state `RenameFolder` returns keeps every object that is not `src` or
inside it: regular files with content and time, directories as directories. -/
theorem RenameFolder_kept (fuel : Nat) (fs : FS) (src dest : String)
    (r : FS × String × Option Errno) (h : RenameFolder fuel fs src dest = some r)
    (s : List String) (hs : resolve fs src = .ok s)
    (q : List String) (m : Node) (hout : isAncestorLoc s q = false)
    (hl : fs.root.lookup q = some m) :
    ∃ m', r.1.root.lookup q = some m' ∧ keptAs m m' = true := by
  unfold RenameFolder at h
  cases hfound : (match Stat fs dest with
      | .ok _ => renameSearch fs dest fuel 0
      | .error _ => some dest) with
  | none => rw [hfound] at h; simp at h
  | some dest' =>
    rw [hfound] at h
    simp only [] at h
    -- the path found was not occupied
    have hfree : occupied fs dest' = false := by
      cases hst : Stat fs dest with
      | error e =>
        rw [hst] at hfound
        simp only [Option.some.injEq] at hfound
        rw [← hfound]
        unfold occupied
        rw [hst]
      | ok fi =>
        rw [hst] at hfound
        exact renameSearch_free fs dest fuel 0 dest' hfound
    cases hmk : MkdirAll fs (Dir dest') with
    | error e =>
      rw [hmk] at h
      simp only [Option.some.injEq] at h
      rw [← h]
      exact ⟨m, hl, keptAs_refl m⟩
    | ok fs1 =>
      rw [hmk] at h
      simp only [] at h
      obtain ⟨m1, hl1, hk1⟩ := MkdirAll_kept fs fs1 _ hmk q m hl
      cases hrn : Rename fs1 src dest' with
      | error e =>
        rw [hrn] at h
        simp only [Option.some.injEq] at h
        rw [← h]
        exact ⟨m1, hl1, hk1⟩
      | ok fs2 =>
        rw [hrn] at h
        simp only [Option.some.injEq] at h
        rw [← h]
        have hs1 := MkdirAll_resolve fs fs1 _ hmk src s hs
        have hfree1 : ∀ c t, fs1.node dest' ≠ .ok (.file c t) := by
          intro c t hn1
          have hn0 := MkdirAll_Dir_file fs fs1 dest' c t hmk hn1
          unfold occupied Stat at hfree
          rw [hn0] at hfree
          simp at hfree
        obtain ⟨m2, hl2, hk2⟩ := Rename_kept fs1 fs2 src dest' hrn s hs1 hfree1 q m1 hout hl1
        exact ⟨m2, hl2, keptAs_trans m m1 m2 hk1 hk2⟩

/-- C6: `RenameFolder(src, dest)` returns `dest` itself when nothing occupies
`dest`; when `dest` is occupied it returns `dest + " (n)"` for the smallest
`n >= 1` (a Go `int`, so below `2^63`) whose candidate is unoccupied, and the
search loop terminates in `n` iterations; in every case the returned path was
unoccupied before the call; and no existing content is overwritten: when `src`
names a location, every object that was in the tree before the call and is not
`src` or inside it is in the tree returned, a regular file with its content
and time, a directory as a directory. -/
theorem RenameFolder_collision_avoidance (fs : FS) (src dest : String) :
    (occupied fs dest = false →
      ∀ fuel, (RenameFolder fuel fs src dest).map (fun r => r.2.1) = some dest) ∧
    (∀ n : Nat, 1 ≤ n → (n : Int) < 2 ^ 63 → occupied fs dest = true →
      (∀ j : Nat, 1 ≤ j → j < n → occupied fs (sprintfSuffix dest j) = true) →
      occupied fs (sprintfSuffix dest n) = false →
      ∀ fuel, n ≤ fuel →
        (RenameFolder fuel fs src dest).map (fun r => r.2.1) =
          some (sprintfSuffix dest n)) ∧
    (∀ fuel r, RenameFolder fuel fs src dest = some r → occupied fs r.2.1 = false) ∧
    (∀ fuel r s, RenameFolder fuel fs src dest = some r → resolve fs src = .ok s →
      ∀ q m, isAncestorLoc s q = false → fs.root.lookup q = some m →
        ∃ m', r.1.root.lookup q = some m' ∧ keptAs m m' = true) := by
  refine ⟨?_, ?_, ?_, ?_⟩
  · intro hfree fuel
    rw [RenameFolder_path]
    unfold occupied at hfree
    cases hs : Stat fs dest with
    | error e => rfl
    | ok fi => simp [hs] at hfree
  · intro n hn1 hn63 hocc hbelow hfree fuel hfuel
    rw [RenameFolder_path]
    unfold occupied at hocc
    cases hs : Stat fs dest with
    | error e => simp [hs] at hocc
    | ok fi =>
      simp only []
      have h := renameSearch_finds fs dest n hn63 hfree fuel 0 (by omega) (by omega)
        (fun j hj hjn => hbelow j (by omega) hjn)
      rw [Nat.cast_zero] at h
      exact h
  · intro fuel r hr
    have hp := RenameFolder_path fuel fs src dest
    rw [hr] at hp
    simp only [Option.map_some'] at hp
    cases hs : Stat fs dest with
    | error e =>
      rw [hs] at hp
      simp only [Option.some.injEq] at hp
      rw [hp]
      simp [occupied, hs]
    | ok fi =>
      rw [hs] at hp
      exact renameSearch_free fs dest fuel 0 r.2.1 hp.symm
  · intro fuel r s hr hs q m hout hl
    exact RenameFolder_kept fuel fs src dest r hr s hs q m hout hl

/-- Witness for C6: in `renameFS` both `t/dir1` and `t/dir1 (1)` are occupied
and `t/dir1 (2)` is free, so renaming `t/dir3` to `t/dir1` returns
`t/dir1 (2)`, and the file `t/dir1/file1` is afterwards what it was. -/
theorem RenameFolder_collision_avoidance_witness :
    (RenameFolder 2 renameFS "t/dir3" "t/dir1").map (fun r => r.2.1) =
      some "t/dir1 (2)" ∧
    (RenameFolder 2 renameFS "t/dir3" "t/dir1").map
        (fun r => (r.1.root.lookup ["t", "dir1", "file1"]).map
          (keptAs (.file "abcde" 0))) = some (some true) := by
  refine ⟨(RenameFolder_collision_avoidance renameFS "t/dir3" "t/dir1").2.1 2
    (by decide) (by norm_num) (by decide)
    (fun j h1 h2 => by
      have hj : j = 1 := by omega
      subst hj
      decide)
    (by decide) 2 (le_refl 2), ?_⟩
  cases h : RenameFolder 2 renameFS "t/dir3" "t/dir1" with
  | none =>
    have hsome : (RenameFolder 2 renameFS "t/dir3" "t/dir1").isSome = true := by decide
    rw [h] at hsome
    cases hsome
  | some r =>
    obtain ⟨m', hl, hk⟩ :=
      (RenameFolder_collision_avoidance renameFS "t/dir3" "t/dir1").2.2.2 2 r
        ["t", "dir3"] h (by decide) ["t", "dir1", "file1"] (.file "abcde" 0)
        (by decide) rfl
    simp [hl, hk]

end Ssync
